import Mathlib

/-!
Verification development for the time-travel metadata core of the Hummock
storage engine: the stripped persisted encoding of versions and deltas
(`src/storage/hummock_sdk/src/time_travel.rs`) and the write / resolve /
truncate operations of the meta service
(`src/meta/src/hummock/manager/time_travel.rs`).

Machine integers of the source (`u64`, `i64`) are modelled as `Nat`; no claim
involves overflow.  Protobuf maps (`HashMap`) are modelled as association
lists; SQL tables are association lists keyed by their primary-key column.
Rust panics (`unreachable!`, `unwrap`) and database errors surface as
`Option`/`Except` in the model.  Helper functions of the repository that are
declared outside the two files above (`get_sst_ids`, `newly_added_sst_infos`,
`apply_version_delta`, `from_persisted_protobuf`) are modelled from the spec
and marked as such in their doc comments.
-/

/-- Protobuf `KeyRange` of an SSTable: byte-string bounds are modelled as
`List Nat`. -/
structure KeyRange where
  left : List Nat
  right : List Nat
  right_exclusive : Bool
deriving DecidableEq, Repr

/-- Protobuf `SstableInfo` (`PbSstableInfo`): full per-file metadata record.
Field set follows `stripped_sstable_info` in
`src/storage/hummock_sdk/src/time_travel.rs`.  Identity is `sst_id`. -/
structure SstableInfo where
  object_id : Nat
  sst_id : Nat
  key_range : Option KeyRange
  file_size : Nat
  table_ids : List Nat
  meta_offset : Nat
  stale_key_count : Nat
  total_key_count : Nat
  min_epoch : Nat
  max_epoch : Nat
  uncompressed_file_size : Nat
  range_tombstone_count : Nat
  bloom_filter_kind : Nat
deriving DecidableEq, Repr

/-- Protobuf `PbLevel`: one sorted tier holding an ordered list of file
references. -/
structure Level where
  level_idx : Nat
  level_type : Nat
  table_infos : List SstableInfo
  total_file_size : Nat
  sub_level_id : Nat
  uncompressed_file_size : Nat
  vnode_partition_count : Nat
deriving DecidableEq, Repr

/-- Protobuf `PbOverlappingLevel`: the unsorted L0 tier made of sub-levels. -/
structure OverlappingLevel where
  sub_levels : List Level
  total_file_size : Nat
  uncompressed_file_size : Nat
deriving DecidableEq, Repr

/-- Protobuf `PbLevels`: the per-compaction-group level structure.  `l0` is an
optional message in protobuf, hence `Option` here; `member_table_ids` is the
deprecated field that `stripped_levels` resets to its default. -/
structure Levels where
  levels : List Level
  l0 : Option OverlappingLevel
  group_id : Nat
  parent_group_id : Nat
  member_table_ids : List Nat
deriving DecidableEq, Repr

/-- Protobuf `EpochNewChangeLog`: one per-table change-log entry with old and
new file sets and an epoch range. -/
structure EpochNewChangeLog where
  old_value : List SstableInfo
  new_value : List SstableInfo
  epochs : List Nat
deriving DecidableEq, Repr

/-- Protobuf `ChangeLogDelta`. -/
structure ChangeLogDelta where
  new_log : Option EpochNewChangeLog
  truncate_epoch : Nat
deriving DecidableEq, Repr

/-- `HummockVersion`: complete snapshot of the storage state at one instant.
The struct itself lives in `hummock_sdk/src/version.rs`, outside the given
sources; its field set here follows the uses in the given files and the spec
(section 3).  `levels` maps compaction-group id to its level structure;
`table_watermarks` and `state_table_info` carry payloads that the time-travel
code only ever clones, so they are modelled as opaque `Nat` payloads. -/
structure HummockVersion where
  id : Nat
  levels : List (Nat × Levels)
  max_committed_epoch : Nat
  safe_epoch : Nat
  table_watermarks : List (Nat × Nat)
  table_change_log : List (Nat × List EpochNewChangeLog)
  state_table_info : Nat
deriving DecidableEq, Repr

/-- Protobuf `PbIntraLevelDelta`: file insertions/removals on one tier. -/
structure IntraLevelDelta where
  level_idx : Nat
  l0_sub_level_id : Nat
  removed_table_ids : List Nat
  inserted_table_infos : List SstableInfo
  vnode_partition_count : Nat
deriving DecidableEq, Repr

/-- Protobuf `group_delta::DeltaType`.  Payloads of the variants other than
`IntraLevel` are opaque to the time-travel code (cloned or rejected), so they
are modelled as `Nat`. -/
inductive DeltaType where
  | intraLevel (d : IntraLevelDelta)
  | groupConstruct (payload : Nat)
  | groupDestroy (payload : Nat)
  | groupMetaChange (payload : Nat)
  | groupTableChange (payload : Nat)
deriving DecidableEq, Repr

/-- Protobuf `PbGroupDelta`: an optional `DeltaType`. -/
structure GroupDelta where
  delta_type : Option DeltaType
deriving DecidableEq, Repr

/-- `HummockVersionDelta`: the minimal description of how one version derives
from its predecessor.  Struct from `hummock_sdk/src/version.rs` (outside the
given sources); fields follow the uses in the given files and the spec.
`PbGroupDeltas` is the list of group deltas of one compaction group. -/
structure HummockVersionDelta where
  id : Nat
  prev_id : Nat
  group_deltas : List (Nat × List GroupDelta)
  max_committed_epoch : Nat
  safe_epoch : Nat
  trivial_move : Bool
  new_table_watermarks : List (Nat × Nat)
  removed_table_ids : List Nat
  change_log_delta : List (Nat × ChangeLogDelta)
  state_table_info_delta : List (Nat × Nat)
deriving DecidableEq, Repr

/-! ## Stripping (StrippedEncoder), from `hummock_sdk/src/time_travel.rs` -/

/-- `stripped_sstable_info`: clone keeping only `sst_id`, all other fields
defaulted. -/
def stripped_sstable_info (origin : SstableInfo) : SstableInfo where
  object_id := 0
  sst_id := origin.sst_id
  key_range := none
  file_size := 0
  table_ids := []
  meta_offset := 0
  stale_key_count := 0
  total_key_count := 0
  min_epoch := 0
  max_epoch := 0
  uncompressed_file_size := 0
  range_tombstone_count := 0
  bloom_filter_kind := 0

/-- `stripped_epoch_new_change_log`. -/
def stripped_epoch_new_change_log (origin : EpochNewChangeLog) : EpochNewChangeLog where
  old_value := origin.old_value.map stripped_sstable_info
  new_value := origin.new_value.map stripped_sstable_info
  epochs := origin.epochs

/-- `stripped_change_log_delta`. -/
def stripped_change_log_delta (origin : ChangeLogDelta) : ChangeLogDelta where
  new_log := origin.new_log.map stripped_epoch_new_change_log
  truncate_epoch := origin.truncate_epoch

/-- `stripped_level`. -/
def stripped_level (origin : Level) : Level where
  level_idx := origin.level_idx
  level_type := origin.level_type
  table_infos := origin.table_infos.map stripped_sstable_info
  total_file_size := origin.total_file_size
  sub_level_id := origin.sub_level_id
  uncompressed_file_size := origin.uncompressed_file_size
  vnode_partition_count := origin.vnode_partition_count

/-- `stripped_l0`. -/
def stripped_l0 (origin : OverlappingLevel) : OverlappingLevel where
  sub_levels := origin.sub_levels.map stripped_level
  total_file_size := origin.total_file_size
  uncompressed_file_size := origin.uncompressed_file_size

/-- `stripped_levels`: note that the deprecated `member_table_ids` field is
reset to its default (the empty list), not copied. -/
def stripped_levels (origin : Levels) : Levels where
  levels := origin.levels.map stripped_level
  l0 := origin.l0.map stripped_l0
  group_id := origin.group_id
  parent_group_id := origin.parent_group_id
  member_table_ids := []

/-- `stripped_intra_level_delta`. -/
def stripped_intra_level_delta (origin : IntraLevelDelta) : IntraLevelDelta where
  level_idx := origin.level_idx
  l0_sub_level_id := origin.l0_sub_level_id
  removed_table_ids := origin.removed_table_ids
  inserted_table_infos := origin.inserted_table_infos.map stripped_sstable_info
  vnode_partition_count := origin.vnode_partition_count

/-- `stripped_group_delta`: the `GroupMetaChange` and `GroupTableChange`
variants hit `unreachable!` in the source, modelled as `none` (panic). -/
def stripped_group_delta (origin : GroupDelta) : Option GroupDelta :=
  match origin.delta_type with
  | none => some ⟨none⟩
  | some (DeltaType.intraLevel l) => some ⟨some (DeltaType.intraLevel (stripped_intra_level_delta l))⟩
  | some (DeltaType.groupConstruct l) => some ⟨some (DeltaType.groupConstruct l)⟩
  | some (DeltaType.groupDestroy l) => some ⟨some (DeltaType.groupDestroy l)⟩
  | some (DeltaType.groupMetaChange _) => none
  | some (DeltaType.groupTableChange _) => none

/-- Option-valued map over a list, `none` as soon as any element maps to
`none`: the `mapM`/short-circuiting iteration of the source's fallible loops
and of its panicking in-place loops. -/
def mapMOpt (f : α → Option β) : List α → Option (List β)
  | [] => some []
  | a :: rest =>
    match f a, mapMOpt f rest with
    | some b, some bs => some (b :: bs)
    | _, _ => none

/-- `stripped_group_deltas`: strips each group delta of one group; `none` if
any single one panics. -/
def stripped_group_deltas (origin : List GroupDelta) : Option (List GroupDelta) :=
  mapMOpt stripped_group_delta origin

/-- `From<&HummockVersion> for IncompleteHummockVersion` composed with
`IncompleteHummockVersion::to_protobuf` and (spec-modelled, see section 4.3)
`from_persisted_protobuf`: since `IncompleteHummockVersion` has field-for-field
the same shape as the version itself, the whole round trip through the
persisted representation is one stripping function on `HummockVersion`.
`visible_table_safe_epoch()` (outside the given sources) is modelled from the
spec as the version's `safe_epoch` field. -/
def stripVersion (version : HummockVersion) : HummockVersion where
  id := version.id
  levels := version.levels.map (fun r => (r.1, stripped_levels r.2))
  max_committed_epoch := version.max_committed_epoch
  safe_epoch := version.safe_epoch
  table_watermarks := version.table_watermarks
  table_change_log :=
    version.table_change_log.map (fun r => (r.1, r.2.map stripped_epoch_new_change_log))
  state_table_info := version.state_table_info

/-- `From<&HummockVersionDelta> for IncompleteHummockVersionDelta` composed
with its `to_protobuf` and persisted-protobuf decoding, as one stripping
function on `HummockVersionDelta`; `none` models the `unreachable!` panic
inside `stripped_group_delta`. -/
def stripDelta (delta : HummockVersionDelta) : Option HummockVersionDelta :=
  match mapMOpt (fun r => (stripped_group_deltas r.2).map (fun g => (r.1, g))) delta.group_deltas with
  | none => none
  | some gds => some
    { id := delta.id
      prev_id := delta.prev_id
      group_deltas := gds
      max_committed_epoch := delta.max_committed_epoch
      safe_epoch := delta.safe_epoch
      trivial_move := delta.trivial_move
      new_table_watermarks := delta.new_table_watermarks
      removed_table_ids := delta.removed_table_ids
      change_log_delta :=
        delta.change_log_delta.map (fun r => (r.1, stripped_change_log_delta r.2))
      state_table_info_delta := delta.state_table_info_delta }

/-! ## Refilling, from `hummock_sdk/src/time_travel.rs` -/

/-- Lookup of the first row with the given key in an association list; models
a keyed lookup (`HashMap::get`, SQL `find_by_id`). -/
def lookupRow (k : Nat) : List (Nat × α) → Option α
  | [] => none
  | r :: rest => if r.1 = k then some r.2 else lookupRow k rest

/-- `refill_sstable_info`: replace a placeholder wholesale by the registry
record with its `sst_id`; the source panics when the id is absent, modelled as
`none`. -/
def refill_sstable_info (sstable_info : SstableInfo) (sst_id_to_info : List (Nat × SstableInfo)) :
    Option SstableInfo :=
  lookupRow sstable_info.sst_id sst_id_to_info

/-- `refill_level`. -/
def refill_level (level : Level) (sst_id_to_info : List (Nat × SstableInfo)) : Option Level :=
  match mapMOpt (fun s => refill_sstable_info s sst_id_to_info) level.table_infos with
  | none => none
  | some infos => some { level with table_infos := infos }

/-- `refill_table_change_log`. -/
def refill_table_change_log (log : List EpochNewChangeLog)
    (sst_id_to_info : List (Nat × SstableInfo)) : Option (List EpochNewChangeLog) :=
  mapMOpt (fun c =>
    match mapMOpt (fun s => refill_sstable_info s sst_id_to_info) c.old_value,
          mapMOpt (fun s => refill_sstable_info s sst_id_to_info) c.new_value with
    | some ov, some nv => some { c with old_value := ov, new_value := nv }
    | _, _ => none) log

/-- Refill one group's level structure: the source unwraps `l0` (panic when
absent, modelled as `none`) and refills every L0 sub-level and every sorted
level. -/
def refill_levels (ls : Levels) (sst_id_to_info : List (Nat × SstableInfo)) : Option Levels :=
  match ls.l0 with
  | none => none
  | some l0 =>
    match mapMOpt (fun l => refill_level l sst_id_to_info) l0.sub_levels,
          mapMOpt (fun l => refill_level l sst_id_to_info) ls.levels with
    | some subs, some lvls => some { ls with l0 := some { l0 with sub_levels := subs }, levels := lvls }
    | _, _ => none

/-- `refill_version`: restores full `SstableInfo` records in place throughout
the level structure and the table change logs. -/
def refill_version (version : HummockVersion) (sst_id_to_info : List (Nat × SstableInfo)) :
    Option HummockVersion :=
  match mapMOpt (fun r => (refill_levels r.2 sst_id_to_info).map (fun ls => (r.1, ls))) version.levels,
        mapMOpt (fun r => (refill_table_change_log r.2 sst_id_to_info).map (fun l => (r.1, l)))
          version.table_change_log with
  | some lvls, some logs => some { version with levels := lvls, table_change_log := logs }
  | _, _ => none

/-! ## Referenced-file collection and delta application

These helpers live in `hummock_sdk/src/version.rs` and
`compaction_group/hummock_version_ext.rs`, which are outside the given
sources; they are modelled from the spec (sections 3 and 4.3). -/

/-- The `sst_id`s of one level's file references. -/
def levelSstIds (l : Level) : List Nat := l.table_infos.map (fun s => s.sst_id)

/-- The `sst_id`s referenced by one group's level structure: every L0
sub-level plus every sorted level. -/
def levelsSstIds (ls : Levels) : List Nat :=
  (match ls.l0 with
   | some l0 => l0.sub_levels.flatMap levelSstIds
   | none => []) ++ ls.levels.flatMap levelSstIds

/-- The `sst_id`s referenced by a list of change-log entries (old and new file
sets). -/
def changeLogSstIds (log : List EpochNewChangeLog) : List Nat :=
  log.flatMap (fun c => (c.old_value ++ c.new_value).map (fun s => s.sst_id))

/-- Modelled from the spec: `HummockVersion::get_sst_ids` — the set of
distinct file ids referenced anywhere in the version (all tiers, L0, and
change-log entries; spec section 4.3 step 5).  Result as a deduplicated list,
keeping first occurrences. -/
def HummockVersion.sstIdList (v : HummockVersion) : List Nat :=
  (v.levels.flatMap (fun r => levelsSstIds r.2) ++
    v.table_change_log.flatMap (fun r => changeLogSstIds r.2)).dedup

/-- The referenced file ids of a version, as a finite set. -/
def HummockVersion.sstIdSet (v : HummockVersion) : Finset Nat := v.sstIdList.toFinset

/-- The `SstableInfo` records inserted by the intra-level group deltas of a
version delta. -/
def intraInsertedInfos (d : HummockVersionDelta) : List SstableInfo :=
  d.group_deltas.flatMap (fun r =>
    r.2.flatMap (fun gd =>
      match gd.delta_type with
      | some (DeltaType.intraLevel l) => l.inserted_table_infos
      | _ => []))

/-- The `SstableInfo` records referenced by the change-log part of a version
delta (old and new file sets of each new log entry). -/
def changeLogNewInfos (d : HummockVersionDelta) : List SstableInfo :=
  d.change_log_delta.flatMap (fun r =>
    match r.2.new_log with
    | some log => log.old_value ++ log.new_value
    | none => [])

/-- Modelled from the spec: `HummockVersionDelta::newly_added_sst_infos` —
every `FileInfo` newly referenced by the delta (spec section 4.2 step 3):
intra-level insertions plus change-log entries. -/
def HummockVersionDelta.newlyAddedSstInfos (d : HummockVersionDelta) : List SstableInfo :=
  intraInsertedInfos d ++ changeLogNewInfos d

/-- Modelled from the spec: `HummockVersionDelta::newly_added_sst_ids` — the
ids of `newlyAddedSstInfos`, as a finite set. -/
def HummockVersionDelta.newlyAddedSstIds (d : HummockVersionDelta) : Finset Nat :=
  (d.newlyAddedSstInfos.map (fun s => s.sst_id)).toFinset

/-- Remove the files with the given ids from a level. -/
def removeIdsFromLevel (rm : List Nat) (l : Level) : Level :=
  { l with table_infos := l.table_infos.filter (fun s => decide (s.sst_id ∉ rm)) }

/-- Replace the element at the given position, when it exists. -/
def modifyAt (f : α → α) : Nat → List α → List α
  | _, [] => []
  | 0, a :: rest => f a :: rest
  | n + 1, a :: rest => a :: modifyAt f n rest

/-- Modelled from the spec: application of one intra-level delta to one
group's level structure — remove the removed ids from every tier, then insert
the inserted files at the target tier (a new L0 sub-level for `level_idx = 0`,
appended to the addressed sorted level otherwise; spec section 3,
"file insertions/removals per tier"). -/
def applyIntraLevelDelta (ild : IntraLevelDelta) (ls : Levels) : Levels :=
  let removed : Levels :=
    { ls with
      l0 := ls.l0.map (fun l0 =>
        { l0 with sub_levels := l0.sub_levels.map (removeIdsFromLevel ild.removed_table_ids) })
      levels := ls.levels.map (removeIdsFromLevel ild.removed_table_ids) }
  if ild.level_idx = 0 then
    { removed with
      l0 := some
        (let l0 := removed.l0.getD ⟨[], 0, 0⟩
         { l0 with sub_levels := l0.sub_levels ++
            [⟨0, 0, ild.inserted_table_infos, 0, ild.l0_sub_level_id, 0, ild.vnode_partition_count⟩] }) }
  else
    { removed with
      levels := modifyAt
        (fun l => { l with table_infos := l.table_infos ++ ild.inserted_table_infos })
        (ild.level_idx - 1) removed.levels }

/-- An empty level structure for a newly constructed group. -/
def emptyLevels (gid : Nat) : Levels where
  levels := []
  l0 := some ⟨[], 0, 0⟩
  group_id := gid
  parent_group_id := 0
  member_table_ids := []

/-- Modelled from the spec: application of one group delta to the version's
group map (tier construction/destruction and intra-level changes; spec
section 3).  `GroupMetaChange`/`GroupTableChange` are never archived and are
modelled as no-ops. -/
def applyGroupDelta (gid : Nat) (levels : List (Nat × Levels)) (gd : GroupDelta) :
    List (Nat × Levels) :=
  match gd.delta_type with
  | some (DeltaType.intraLevel ild) =>
    levels.map (fun r => if r.1 = gid then (gid, applyIntraLevelDelta ild r.2) else r)
  | some (DeltaType.groupConstruct _) =>
    levels.filter (fun r => decide (r.1 ≠ gid)) ++ [(gid, emptyLevels gid)]
  | some (DeltaType.groupDestroy _) => levels.filter (fun r => decide (r.1 ≠ gid))
  | _ => levels

/-- Apply all group deltas of a version delta to the group map. -/
def applyGroupDeltas (levels : List (Nat × Levels)) (gds : List (Nat × List GroupDelta)) :
    List (Nat × Levels) :=
  gds.foldl (fun acc r => r.2.foldl (applyGroupDelta r.1) acc) levels

/-- Apply one table's change-log delta to that table's log: truncate entries
wholly below the truncation epoch, then append the new entry when present. -/
def applyChangeLogDelta (log : List EpochNewChangeLog) (cld : ChangeLogDelta) :
    List EpochNewChangeLog :=
  (log.filter (fun c => c.epochs.any (fun ep => decide (cld.truncate_epoch ≤ ep)))) ++
    (match cld.new_log with
     | some c => [c]
     | none => [])

/-- Apply all change-log deltas of a version delta to the per-table change
logs: update the tables named by the delta (creating absent ones), and drop
the tables in `removed_table_ids`. -/
def applyChangeLogDeltas (logs : List (Nat × List EpochNewChangeLog))
    (d : HummockVersionDelta) : List (Nat × List EpochNewChangeLog) :=
  let updated := logs.map (fun r =>
    match lookupRow r.1 d.change_log_delta with
    | some cld => (r.1, applyChangeLogDelta r.2 cld)
    | none => r)
  let fresh := d.change_log_delta.filter (fun r => decide (lookupRow r.1 logs = none))
  (updated ++ fresh.map (fun r => (r.1, applyChangeLogDelta [] r.2))).filter
    (fun r => decide (r.1 ∉ d.removed_table_ids))

/-- Merge the delta's new table watermarks over the version's (overriding by
table id), and drop removed tables. -/
def applyTableWatermarks (wm : List (Nat × Nat)) (d : HummockVersionDelta) :
    List (Nat × Nat) :=
  (wm.filter (fun r => decide (lookupRow r.1 d.new_table_watermarks = none)) ++
    d.new_table_watermarks).filter (fun r => decide (r.1 ∉ d.removed_table_ids))

/-- Modelled from the spec: `HummockVersion::apply_version_delta` — applying a
delta to the version with id `prev_id` yields the version with id `id` (spec
section 3): group deltas change the level structure, the committed and safe
epochs are taken from the delta, and the watermark/change-log/table-removal
deltas update the per-table maps. -/
def applyVersionDelta (v : HummockVersion) (d : HummockVersionDelta) : HummockVersion where
  id := d.id
  levels := applyGroupDeltas v.levels d.group_deltas
  max_committed_epoch := d.max_committed_epoch
  safe_epoch := d.safe_epoch
  table_watermarks := applyTableWatermarks v.table_watermarks d
  table_change_log := applyChangeLogDeltas v.table_change_log d
  state_table_info := v.state_table_info

/-- The id-advance loop of `replay_archive`
(`meta/src/hummock/manager/time_travel.rs`): while the running version's id is
below the target, increment it by one with no other change. -/
def advanceTo (v : HummockVersion) (target : Nat) : HummockVersion :=
  if v.id < target then advanceTo { v with id := v.id + 1 } target else v
termination_by target - v.id
decreasing_by
  omega

/-- One step of `replay_archive`: advance the running id to the delta's
`prev_id` (traversing unarchived pure-compaction versions), then apply the
delta's content. -/
def replayStep (v : HummockVersion) (d : HummockVersionDelta) : HummockVersion :=
  applyVersionDelta (advanceTo v d.prev_id) d

/-- `replay_archive`: replay an ascending chain of deltas on top of a keyframe
version. -/
def replay_archive (version : HummockVersion) (deltas : List HummockVersionDelta) :
    HummockVersion :=
  deltas.foldl replayStep version

/-! ## Stores and the manager operations, from
`meta/src/hummock/manager/time_travel.rs`

The four logical tables (spec section 6) are association lists keyed by the
primary-key column; transactional execution is an `Except` computation whose
error case leaves the caller with the pre-call state (rollback). -/

/-- Error taxonomy of the manager operations.  `kfRowMissing` and
`deltaRowMissing` are the corruption-class `Error::TimeTravel` errors raised
when an expected archive row is absent; `uniqueViolation` is the backing
store's duplicate-primary-key error on a plain insert; `stripUnreachable`
stands for the `unreachable!` panic while stripping a delta. -/
inductive Err where
  | versionNotFound
  | noReplayVersion
  | sstInfoMissing
  | refillMissing
  | kfRowMissing
  | deltaRowMissing
  | uniqueViolation
  | stripUnreachable
deriving DecidableEq, Repr

/-- The corruption-class errors of spec section 7. -/
def Err.isCorruption : Err → Prop
  | Err.kfRowMissing => True
  | Err.deltaRowMissing => True
  | _ => False

/-- The persisted state of the time-travel core: `EpochIndex`
(`hummock_epoch_to_version`, epoch → version id), `Keyframe`
(`hummock_time_travel_version`), `DeltaLog` (`hummock_time_travel_delta`) and
`FileRegistry` (`hummock_sstable_info`). -/
structure Db where
  epochIndex : List (Nat × Nat)
  keyframes : List (Nat × HummockVersion)
  deltas : List (Nat × HummockVersionDelta)
  registry : List (Nat × SstableInfo)
deriving DecidableEq, Repr

/-- Model of `filter(col ≤ bound (resp. < bound)).order_by_desc(col).one()`:
the first row attaining the greatest key satisfying the predicate. -/
def selMax (p : Nat → Bool) : List (Nat × α) → Option (Nat × α)
  | [] => none
  | r :: rest =>
    match selMax p rest with
    | none => if p r.1 then some r else none
    | some s => if p r.1 then (if s.1 ≤ r.1 then some r else s) else some s

/-- Insertion into a descending-sorted list of keys. -/
def insertDesc (x : Nat) : List Nat → List Nat
  | [] => [x]
  | y :: rest => if y ≤ x then x :: y :: rest else y :: insertDesc x rest

/-- Sort keys descending, as `order_by_desc` does. -/
def sortDesc (l : List Nat) : List Nat := l.foldr insertDesc []

/-- Insertion into an ascending-sorted row list (by key). -/
def insertAscRow (x : Nat × α) : List (Nat × α) → List (Nat × α)
  | [] => [x]
  | y :: rest => if x.1 ≤ y.1 then x :: y :: rest else y :: insertAscRow x rest

/-- Sort rows ascending by key, as `order_by_asc` does. -/
def sortAscRows (l : List (Nat × α)) : List (Nat × α) := l.foldr insertAscRow []

/-- `write_sstable_infos`' single insert: insert-or-ignore keyed by `sst_id`
(`on_conflict ... do_nothing`): a no-op, not an error, when the key is already
present. -/
def insertSstableInfo (reg : List (Nat × SstableInfo)) (info : SstableInfo) :
    List (Nat × SstableInfo) :=
  if reg.any (fun r => r.1 == info.sst_id) then reg else reg ++ [(info.sst_id, info)]

/-- `write_sstable_infos`: insert every given record into the registry. -/
def writeSstableInfos (reg : List (Nat × SstableInfo)) (infos : List SstableInfo) :
    List (Nat × SstableInfo) :=
  infos.foldl insertSstableInfo reg

/-- Insert-or-ignore of a keyframe row keyed by `version_id`. -/
def insertKeyframe (kfs : List (Nat × HummockVersion)) (vid : Nat) (v : HummockVersion) :
    List (Nat × HummockVersion) :=
  if kfs.any (fun r => r.1 == vid) then kfs else kfs ++ [(vid, v)]

/-- Insert-or-ignore of a delta row keyed by `version_id`. -/
def insertDeltaRow (ds : List (Nat × HummockVersionDelta)) (vid : Nat)
    (d : HummockVersionDelta) : List (Nat × HummockVersionDelta) :=
  if ds.any (fun r => r.1 == vid) then ds else ds ++ [(vid, d)]

/-- All full `SstableInfo` records referenced by a version.  Modelled from the
spec: `HummockVersion::get_sst_infos` (section 4.2 step 2) — the records of
all tiers, L0 and change-log entries. -/
def HummockVersion.sstInfoList (v : HummockVersion) : List SstableInfo :=
  v.levels.flatMap (fun r =>
    (match r.2.l0 with
     | some l0 => l0.sub_levels.flatMap (fun l => l.table_infos)
     | none => []) ++ r.2.levels.flatMap (fun l => l.table_infos)) ++
  v.table_change_log.flatMap (fun r => r.2.flatMap (fun c => c.old_value ++ c.new_value))

/-- `write_time_travel_metadata`: append the EpochIndex entry
`delta.max_committed_epoch → delta.id` (a plain insert — `epoch` is the
primary key per spec section 6, so a duplicate epoch is a unique-key
violation, not a no-op); then, when a keyframe version is supplied, insert its
full file records into the registry and its stripped snapshot as a keyframe
row; then insert the delta's newly added file records and the delta's stripped
encoding (those inserts all use the insert-or-ignore conflict policy). -/
def writeTimeTravelMetadata (db : Db) (version : Option HummockVersion)
    (delta : HummockVersionDelta) : Except Err Db :=
  if db.epochIndex.any (fun r => r.1 == delta.max_committed_epoch) then
    Except.error Err.uniqueViolation
  else
    let db1 : Db :=
      { db with epochIndex := db.epochIndex ++ [(delta.max_committed_epoch, delta.id)] }
    let db2 : Db :=
      match version with
      | some v =>
        { db1 with
          registry := writeSstableInfos db1.registry v.sstInfoList
          keyframes := insertKeyframe db1.keyframes v.id (stripVersion v) }
      | none => db1
    let db3 : Db := { db2 with registry := writeSstableInfos db2.registry delta.newlyAddedSstInfos }
    match stripDelta delta with
    | none => Except.error Err.stripUnreachable
    | some sd =>
      Except.ok { db3 with deltas := insertDeltaRow db3.deltas delta.id sd }

/-! ## `epoch_to_version` (TimeTravelRetriever) -/

/-- Fuel-indexed helper for the batched drain of the fetch loop: one unit of
fuel per loop iteration, enough fuel making it total (the loop drains at
least one id per iteration when the batch size is positive).  The source loop
does not terminate when the batch size is zero; the model returns no batches
in that (never configured) case. -/
def fetchBatchesFuel (batchSize : Nat) : Nat → List Nat → List (List Nat)
  | _, [] => []
  | 0, _ :: _ => []
  | fuel + 1, ids =>
    if batchSize = 0 then []
    else ids.take batchSize :: fetchBatchesFuel batchSize fuel (ids.drop batchSize)

/-- The batched drain of the fetch loop in `epoch_to_version`: split the
pending id queue into chunks of `min batchSize remaining` ids. -/
def fetchBatches (batchSize : Nat) (ids : List Nat) : List (List Nat) :=
  fetchBatchesFuel batchSize ids.length ids

/-- One batched query: the registry rows whose `sst_id` column is in the
batch, in store order. -/
def fetchRows (reg : List (Nat × SstableInfo)) (batchSize : Nat) (ids : List Nat) :
    List (Nat × SstableInfo) :=
  (fetchBatches batchSize ids).flatMap (fun b => reg.filter (fun r => decide (r.1 ∈ b)))

/-- `HashMap::insert` on the id → info map: overwrite an existing key, else
add the binding. -/
def mapInsert (m : List (Nat × SstableInfo)) (k : Nat) (v : SstableInfo) :
    List (Nat × SstableInfo) :=
  (k, v) :: m.filter (fun r => decide (r.1 ≠ k))

/-- Build `sst_id_to_info` from the fetched rows: each row is inserted keyed
by the `sst_id` field of its stored record. -/
def buildMap (rows : List (Nat × SstableInfo)) : List (Nat × SstableInfo) :=
  rows.foldl (fun m r => mapInsert m r.2.sst_id r.2) []

/-- `epoch_to_version`: resolve the EpochIndex entry with the greatest epoch
at most `query_epoch`; find the greatest keyframe with id at most the target
version id; load the deltas strictly above the keyframe id up to the target
id, ascending; replay; collect the referenced ids; fetch them from the
registry in batches of `batchSize` (`RW_TIME_TRAVEL_SST_INFO_FETCH_BATCH_SIZE`,
default 100); fail when any id was not found; refill and return. -/
def epochToVersion (db : Db) (batchSize : Nat) (queryEpoch : Nat) :
    Except Err HummockVersion :=
  match selMax (fun e => decide (e ≤ queryEpoch)) db.epochIndex with
  | none => Except.error Err.versionNotFound
  | some entry =>
    let expectedVersionId := entry.2
    match selMax (fun k => decide (k ≤ expectedVersionId)) db.keyframes with
    | none => Except.error Err.noReplayVersion
    | some replayVersion =>
      let ds := sortAscRows (db.deltas.filter
        (fun r => decide (replayVersion.1 < r.1 ∧ r.1 ≤ expectedVersionId)))
      let actualVersion := replay_archive replayVersion.2 (ds.map (fun r => r.2))
      let sstIds := actualVersion.sstIdList
      let sstIdToInfo := buildMap (fetchRows db.registry batchSize sstIds)
      if sstIds.length ≠ sstIdToInfo.length then Except.error Err.sstInfoMissing
      else
        match refill_version actualVersion sstIdToInfo with
        | none => Except.error Err.refillMissing
        | some v => Except.ok v

/-! ## `truncate_time_travel_metadata` (Reclaimer) -/

/-- Steps 6 of the reclaimer: for each removable delta id, load its row (a
missing row is the corruption-class `version delta not found` error) and mark
its newly added ids minus the retained floor set for registry deletion. -/
def deltaDeletes (ds : List (Nat × HummockVersionDelta)) (floor : Finset Nat) :
    List Nat → Except Err (Finset Nat)
  | [] => Except.ok ∅
  | i :: rest =>
    match lookupRow i ds with
    | none => Except.error Err.deltaRowMissing
    | some d =>
      match deltaDeletes ds floor rest with
      | Except.error e => Except.error e
      | Except.ok tail => Except.ok ((d.newlyAddedSstIds \ floor) ∪ tail)

/-- Step 7 of the reclaimer: walk the removable keyframe ids from the one
nearest the anchor outward (descending), maintaining the running `next`
file-id set; each keyframe marks its ids minus `next` for deletion (a missing
row is the corruption-class `prev_version not found` error). -/
def chainDeletes (kfs : List (Nat × HummockVersion)) (next : Finset Nat) :
    List Nat → Except Err (Finset Nat)
  | [] => Except.ok ∅
  | i :: rest =>
    match lookupRow i kfs with
    | none => Except.error Err.kfRowMissing
    | some v =>
      match chainDeletes kfs (HummockVersion.sstIdSet v) rest with
      | Except.error e => Except.error e
      | Except.ok tail => Except.ok ((HummockVersion.sstIdSet v \ next) ∪ tail)

/-- Steps 5–7 of the reclaimer: load the keyframe at the anchor
`earliestValidVersionId` (its absence is the corruption-class
`version not found` error), take its file-id set as the floor, then collect
the registry ids marked by the removable deltas and by the removable keyframe
chain. -/
def computeDeleteSets (db : Db) (earliestValidVersionId : Nat)
    (kfIdsDesc deltaIds : List Nat) : Except Err (Finset Nat) :=
  match lookupRow earliestValidVersionId db.keyframes with
  | none => Except.error Err.kfRowMissing
  | some kv =>
    let floor := HummockVersion.sstIdSet kv
    match deltaDeletes db.deltas floor deltaIds with
    | Except.error e => Except.error e
    | Except.ok dd =>
      match chainDeletes db.keyframes floor kfIdsDesc with
      | Except.error e => Except.error e
      | Except.ok kd => Except.ok (dd ∪ kd)

/-- `truncate_time_travel_metadata`: resolve the EpochIndex entry with the
greatest epoch strictly below the watermark (nothing old enough: return with
no change); delete the EpochIndex rows below the watermark; find the greatest
keyframe id at most the resolved version id (none: commit only the index
deletions); compute the registry ids to reclaim from the removable deltas and
keyframes (steps 5–7); delete them together with every keyframe and delta row
below the anchor.  Any error rolls the whole transaction back. -/
def truncateTimeTravelMetadata (db : Db) (epochWatermark : Nat) : Except Err Db :=
  match selMax (fun e => decide (e < epochWatermark)) db.epochIndex with
  | none => Except.ok db
  | some versionWatermark =>
    let epochIndex1 := db.epochIndex.filter (fun r => decide (¬ r.1 < epochWatermark))
    match selMax (fun k => decide (k ≤ versionWatermark.2)) db.keyframes with
    | none => Except.ok { db with epochIndex := epochIndex1 }
    | some kfAnchor =>
      let evv := kfAnchor.1
      let kfIdsDesc := sortDesc ((db.keyframes.map (fun r => r.1)).filter (fun i => decide (i < evv)))
      let deltaIds := (db.deltas.map (fun r => r.1)).filter (fun i => decide (i < evv))
      match computeDeleteSets db evv kfIdsDesc deltaIds with
      | Except.error e => Except.error e
      | Except.ok delIds =>
        Except.ok
          { epochIndex := epochIndex1
            keyframes := db.keyframes.filter (fun r => decide (¬ r.1 < evv))
            deltas := db.deltas.filter (fun r => decide (¬ r.1 < evv))
            registry := db.registry.filter (fun r => decide (r.1 ∉ delIds)) }

/-- The state the backing store holds after a transactional operation: the
new state on commit, the unchanged pre-call state on rollback. -/
def persistedAfter (db : Db) : Except Err Db → Db
  | Except.ok db2 => db2
  | Except.error _ => db

/-- A group delta shape the archive can store: anything except the two
variants that hit `unreachable!` in `stripped_group_delta`. -/
def archivable (gd : GroupDelta) : Bool :=
  match gd.delta_type with
  | some (DeltaType.groupMetaChange _) => false
  | some (DeltaType.groupTableChange _) => false
  | _ => true

/-! ## End of definitions of the model (claim-specific example values follow,
then the theorems) -/

/-- Example intra-level delta for the witnesses. -/
def ildEx : IntraLevelDelta := ⟨1, 0, [], [], 0⟩

/-- Example archivable delta: one intra-level group delta. -/
def dGoodEx : HummockVersionDelta where
  id := 2
  prev_id := 1
  group_deltas := [(1, [⟨some (DeltaType.intraLevel ildEx)⟩])]
  max_committed_epoch := 10
  safe_epoch := 0
  trivial_move := false
  new_table_watermarks := []
  removed_table_ids := []
  change_log_delta := []
  state_table_info_delta := []

/-- Example non-archivable delta: one `GroupMetaChange` group delta. -/
def dBadEx : HummockVersionDelta :=
  { dGoodEx with group_deltas := [(1, [⟨some (DeltaType.groupMetaChange 7)⟩])] }

/-- Example full file record with the given id. -/
def sstEx (i : Nat) : SstableInfo := ⟨i + 100, i, some ⟨[i], [i + 1], false⟩, 10, [i], 1, 2, 3, 4, 5, 6, 7, 8⟩

/-- Example registry holding the records for ids 1..5. -/
def regEx : List (Nat × SstableInfo) := [1, 2, 3, 4, 5].map (fun i => (i, sstEx i))

/-- Example empty version with id 1. -/
def vEmptyEx : HummockVersion := ⟨1, [], 0, 0, [], [], 0⟩

/-- The empty persisted state. -/
def dbEmpty : Db := ⟨[], [], [], []⟩

/-- The state after one successful `write_time_travel_metadata` of `dGoodEx`
into the empty state. -/
def dbAfterWriteEx : Db := persistedAfter dbEmpty (writeTimeTravelMetadata dbEmpty none dGoodEx)

/-- Decidable equality of `Except` results, for concrete evaluation. -/
instance exceptDecEq {ε α : Type} [DecidableEq ε] [DecidableEq α] :
    DecidableEq (Except ε α) := fun a b =>
  match a, b with
  | Except.error e, Except.error f =>
    if h : e = f then isTrue (by rw [h]) else isFalse (by intro hc; cases hc; exact h rfl)
  | Except.ok x, Except.ok y =>
    if h : x = y then isTrue (by rw [h]) else isFalse (by intro hc; cases hc; exact h rfl)
  | Except.error _, Except.ok _ => isFalse (by intro hc; cases hc)
  | Except.ok _, Except.error _ => isFalse (by intro hc; cases hc)

/-- Counterexample version for the strip/refill round trip: no file
references at all, but a non-empty deprecated `member_table_ids` list. -/
def vBadEx : HummockVersion :=
  ⟨1, [(1, ⟨[], some ⟨[], 0, 0⟩, 1, 0, [42]⟩)], 5, 0, [], [], 0⟩

/-- Round-trip witness version: one L0 sub-level, one sorted level and one
change-log entry, referencing files 1..4. -/
def vGoodEx : HummockVersion :=
  ⟨3,
   [(1, ⟨[⟨1, 1, [sstEx 2], 10, 0, 10, 0⟩],
         some ⟨[⟨0, 0, [sstEx 1], 10, 7, 10, 0⟩], 20, 20⟩, 1, 0, []⟩)],
   30, 2, [(5, 9)], [(5, [⟨[sstEx 3], [sstEx 4], [30]⟩])], 4⟩

/-- Registry map holding the originals of files 1..4. -/
def mGoodEx : List (Nat × SstableInfo) := [1, 2, 3, 4].map (fun i => (i, sstEx i))

/-- Keyframe version with id `i` and no file references. -/
def kvEpoch (i : Nat) : HummockVersion := ⟨i, [], i, 0, [], [], 0⟩

/-- Store with three consecutively indexed epochs 1, 2, 3, each with its own
keyframe. -/
def dbC3 : Db :=
  ⟨[(1, 1), (2, 2), (3, 3)], [(1, kvEpoch 1), (2, kvEpoch 2), (3, kvEpoch 3)], [], []⟩

/-- Store with indexed epochs 1 and 5 only (a gap in between). -/
def dbC3b : Db := ⟨[(1, 1), (5, 5)], [(1, kvEpoch 1), (5, kvEpoch 5)], [], []⟩

/-- Keyframe for the reclamation witness: version 1 referencing file 1 through
its change log. -/
def kvA7 : HummockVersion :=
  ⟨1, [], 10, 0, [], [(7, [⟨[stripped_sstable_info (sstEx 1)], [], [10]⟩])], 0⟩

/-- Keyframe for the reclamation witness: version 2 referencing file 2 through
its change log. -/
def kvB7 : HummockVersion :=
  ⟨2, [], 20, 0, [], [(7, [⟨[stripped_sstable_info (sstEx 2)], [], [20]⟩])], 0⟩

/-- Store for the reclamation witness: epochs 10 and 20, keyframes 1 and 2,
one delta row at id 2, files 1 and 2 registered. -/
def db7 : Db :=
  ⟨[(10, 1), (20, 2)], [(1, kvA7), (2, kvB7)], [(2, dGoodEx)],
   [(1, sstEx 1), (2, sstEx 2)]⟩

/-- The committed state after truncating `db7` at watermark 25. -/
def dbAfterTruncEx : Db := persistedAfter db7 (truncateTimeTravelMetadata db7 25)

/-- The ids a single group delta can insert (non-empty only for intra-level
deltas). -/
def gdInsertedIds (gd : GroupDelta) : List Nat :=
  match gd.delta_type with
  | some (DeltaType.intraLevel ild) => ild.inserted_table_infos.map (fun s => s.sst_id)
  | _ => []

/-- The ids referenced by one change-log delta's new entry. -/
def cldNewIds (cld : ChangeLogDelta) : List Nat :=
  match cld.new_log with
  | some c => (c.old_value ++ c.new_value).map (fun s => s.sst_id)
  | none => []

/-- The union of the newly added id sets of a list of deltas. -/
def deltasNewIds (ds : List HummockVersionDelta) : Finset Nat :=
  ds.foldr (fun d acc => d.newlyAddedSstIds ∪ acc) ∅

/-- Store for the GC-safety counterexample: one indexed epoch (10) below the
truncation watermark, one keyframe. -/
def dbC1 : Db := ⟨[(10, 1)], [(1, kvEpoch 1)], [], []⟩

/-- The committed state after truncating `dbC1` at watermark 20. -/
def dbC1after : Db := persistedAfter dbC1 (truncateTimeTravelMetadata dbC1 20)

/-! MARKER-DEFS -/

/-! ## Theorems -/

/-- Auxiliary: `mapMOpt` succeeds with the pointwise images when every element
maps to `some`. -/
theorem mapMOpt_eq_some_of (f : α → Option β) (g : α → β) (l : List α)
    (h : ∀ a ∈ l, f a = some (g a)) : mapMOpt f l = some (l.map g) := by
  induction l with
  | nil => rfl
  | cons a rest ih =>
    have hf := h a (List.mem_cons_self a rest)
    have hr := ih (fun x hx => h x (List.mem_cons_of_mem a hx))
    simp [mapMOpt, hf, hr]

/-- Auxiliary: `mapMOpt` fails as soon as one element maps to `none`. -/
theorem mapMOpt_eq_none_of (f : α → Option β) (l : List α) (a : α) (ha : a ∈ l)
    (hf : f a = none) : mapMOpt f l = none := by
  induction l with
  | nil => cases ha
  | cons b rest ih =>
    rcases List.mem_cons.mp ha with h | h
    · subst h
      cases hr : mapMOpt f rest <;> simp [mapMOpt, hf, hr]
    · cases hfb : f b <;> simp [mapMOpt, ih h, hfb]

/-- Auxiliary: `mapMOpt` succeeds exactly when every element succeeds. -/
theorem mapMOpt_isSome_iff (f : α → Option β) (l : List α) :
    (mapMOpt f l).isSome ↔ ∀ a ∈ l, (f a).isSome := by
  induction l with
  | nil => simp [mapMOpt]
  | cons a rest ih =>
    cases hf : f a <;> cases hr : mapMOpt f rest <;>
      simp_all [mapMOpt]

/-- Auxiliary: stripping one group delta succeeds exactly on archivable
shapes. -/
theorem stripped_group_delta_isSome_iff (gd : GroupDelta) :
    (stripped_group_delta gd).isSome ↔ archivable gd = true := by
  cases gd with
  | mk dt =>
    cases dt with
    | none => simp [stripped_group_delta, archivable]
    | some t => cases t <;> simp [stripped_group_delta, archivable]

/-- Auxiliary: mapping over an option preserves `isSome`. -/
theorem optionMapIsSome (f : α → β) (o : Option α) : (o.map f).isSome = o.isSome := by
  cases o <;> rfl

/-- Auxiliary: stripping a whole delta succeeds exactly when every group delta
is archivable. -/
theorem stripDelta_isSome_iff (d : HummockVersionDelta) :
    (stripDelta d).isSome ↔ ∀ r ∈ d.group_deltas, ∀ gd ∈ r.2, archivable gd = true := by
  have h1 : (stripDelta d).isSome ↔
      (mapMOpt (fun r : Nat × List GroupDelta => (stripped_group_deltas r.2).map
        (fun g => (r.1, g))) d.group_deltas).isSome := by
    rw [stripDelta]
    cases hm : mapMOpt (fun r : Nat × List GroupDelta => (stripped_group_deltas r.2).map
        (fun g => (r.1, g))) d.group_deltas <;> simp [hm]
  rw [h1, mapMOpt_isSome_iff]
  constructor
  · intro h r hr gd hgd
    have := h r hr
    rw [optionMapIsSome, stripped_group_deltas, mapMOpt_isSome_iff] at this
    rw [← stripped_group_delta_isSome_iff]
    exact this gd hgd
  · intro h r hr
    rw [optionMapIsSome, stripped_group_deltas, mapMOpt_isSome_iff]
    intro gd hgd
    rw [stripped_group_delta_isSome_iff]
    exact h r hr gd hgd

/-- C10: stripping a delta is total exactly on the delta shapes the archive
stores.  A delta whose group deltas are all `IntraLevel`, `GroupConstruct` or
`GroupDestroy` converts to its incomplete (stripped) form without panicking —
the `unreachable!` branches are not taken — while a delta containing a
`GroupMetaChange` or `GroupTableChange` group delta makes the conversion
panic (modelled as `none`). -/
theorem strip_delta_totality (d : HummockVersionDelta) :
    ((∀ r ∈ d.group_deltas, ∀ gd ∈ r.2,
        (∃ l, gd.delta_type = some (DeltaType.intraLevel l)) ∨
        (∃ p, gd.delta_type = some (DeltaType.groupConstruct p)) ∨
        (∃ p, gd.delta_type = some (DeltaType.groupDestroy p))) →
      (stripDelta d).isSome) ∧
    (∀ r ∈ d.group_deltas, ∀ gd ∈ r.2,
      ((∃ p, gd.delta_type = some (DeltaType.groupMetaChange p)) ∨
        (∃ p, gd.delta_type = some (DeltaType.groupTableChange p))) →
      stripDelta d = none) := by
  constructor
  · intro h
    rw [stripDelta_isSome_iff]
    intro r hr gd hgd
    rcases h r hr gd hgd with ⟨l, hl⟩ | ⟨p, hp⟩ | ⟨p, hp⟩
    · simp [archivable, hl]
    · simp [archivable, hp]
    · simp [archivable, hp]
  · intro r hr gd hgd hbad
    have hgdnone : stripped_group_delta gd = none := by
      rcases hbad with ⟨p, hp⟩ | ⟨p, hp⟩ <;> simp [stripped_group_delta, hp]
    have hrow : stripped_group_deltas r.2 = none :=
      mapMOpt_eq_none_of _ _ gd hgd hgdnone
    have houter : mapMOpt (fun r : Nat × List GroupDelta => (stripped_group_deltas r.2).map
        (fun g => (r.1, g))) d.group_deltas = none := by
      apply mapMOpt_eq_none_of _ _ r hr
      simp [hrow]
    simp [stripDelta, houter]

/-- Witness for C10: the archivable example delta strips successfully, and the
delta containing a `GroupMetaChange` makes stripping panic. -/
theorem strip_delta_totality_witness :
    (stripDelta dGoodEx).isSome ∧ stripDelta dBadEx = none := by
  refine ⟨(strip_delta_totality dGoodEx).1 ?_,
          (strip_delta_totality dBadEx).2 (1, [⟨some (DeltaType.groupMetaChange 7)⟩])
            (by simp [dBadEx, dGoodEx]) ⟨some (DeltaType.groupMetaChange 7)⟩
            (by simp) (Or.inl ⟨7, rfl⟩)⟩
  intro r hr gd hgd
  simp only [dGoodEx] at hr
  rw [List.mem_singleton] at hr
  subst hr
  rw [List.mem_singleton] at hgd
  subst hgd
  exact Or.inl ⟨ildEx, rfl⟩

/-- C8: registry insertion is idempotent — for every record and every registry
state, the insert-or-ignore write of `write_sstable_infos` applied twice
leaves the registry identical to applying it once (the second insert is a
no-op, not an error: the model's insert is a total function). -/
theorem registry_insert_idempotent (reg : List (Nat × SstableInfo)) (f : SstableInfo) :
    insertSstableInfo (insertSstableInfo reg f) f = insertSstableInfo reg f := by
  by_cases h : reg.any (fun r => r.1 == f.sst_id)
  · simp [insertSstableInfo, h]
  · simp [insertSstableInfo, h]

/-- Auxiliary: the fuel argument is irrelevant once it covers the queue
length. -/
theorem fetchBatchesFuel_irrel (B : Nat) (hB : B ≠ 0) :
    ∀ fuel (ids : List Nat), ids.length ≤ fuel →
      fetchBatchesFuel B fuel ids = fetchBatches B ids := by
  intro fuel
  induction fuel using Nat.strong_induction_on with
  | _ fuel ih =>
    intro ids hle
    cases ids with
    | nil => cases fuel <;> rfl
    | cons a t =>
      cases fuel with
      | zero => simp at hle
      | succ f =>
        have hle2 : t.length ≤ f := by
          simp only [List.length_cons] at hle
          omega
        show (if B = 0 then [] else (a :: t).take B :: fetchBatchesFuel B f ((a :: t).drop B))
          = (if B = 0 then [] else (a :: t).take B :: fetchBatchesFuel B t.length ((a :: t).drop B))
        rw [if_neg hB, if_neg hB]
        have hdl : ((a :: t).drop B).length ≤ f := by
          rw [List.length_drop]
          simp only [List.length_cons]
          omega
        have hdl2 : ((a :: t).drop B).length ≤ t.length := by
          rw [List.length_drop]
          simp only [List.length_cons]
          omega
        rw [ih f (by omega) ((a :: t).drop B) hdl,
          ih t.length (by omega) ((a :: t).drop B) hdl2]

/-- Auxiliary: unfolding equation of `fetchBatches` in the non-degenerate
case. -/
theorem fetchBatches_cons (B : Nat) (ids : List Nat) (hne : ids ≠ []) (hB : B ≠ 0) :
    fetchBatches B ids = ids.take B :: fetchBatches B (ids.drop B) := by
  cases ids with
  | nil => exact absurd rfl hne
  | cons a t =>
    rw [fetchBatches]
    show (if B = 0 then [] else (a :: t).take B :: fetchBatchesFuel B t.length ((a :: t).drop B))
      = (a :: t).take B :: fetchBatches B ((a :: t).drop B)
    rw [if_neg hB, fetchBatchesFuel_irrel B hB t.length ((a :: t).drop B)
      (by rw [List.length_drop]; simp only [List.length_cons]; omega)]

/-- Auxiliary: no batches for an empty queue or a zero batch size. -/
theorem fetchBatches_degenerate (B : Nat) (ids : List Nat) (h : ids = [] ∨ B = 0) :
    fetchBatches B ids = [] := by
  cases ids with
  | nil => rfl
  | cons a t =>
    rcases h with h | h
    · cases h
    · subst h
      rw [fetchBatches]
      show (if (0 : Nat) = 0 then [] else _) = ([] : List (List Nat))
      rw [if_pos rfl]

/-- Auxiliary: the fetch loop performs exactly `⌈n / B⌉` batched queries. -/
theorem fetchBatches_length (B : Nat) (hB : 1 ≤ B) :
    ∀ n (ids : List Nat), ids.length = n →
      (fetchBatches B ids).length = (n + B - 1) / B := by
  intro n
  induction n using Nat.strong_induction_on with
  | _ n ih =>
    intro ids hlen
    by_cases hnil : ids = []
    · subst hnil
      simp only [List.length_nil] at hlen
      subst hlen
      rw [fetchBatches_degenerate B [] (Or.inl rfl)]
      simp only [List.length_nil]
      exact (Nat.div_eq_of_lt (by omega)).symm
    · have hpos : 0 < n := by
        rw [← hlen]
        exact List.length_pos.mpr hnil
      rw [fetchBatches_cons B ids hnil (by omega), List.length_cons]
      have hdrop : (ids.drop B).length = n - B := by
        rw [List.length_drop, hlen]
      have hrec := ih (n - B) (by omega) (ids.drop B) hdrop
      rw [hrec]
      rcases Nat.lt_or_ge B n with hc | hc
      · have h1 : n - B + B - 1 = n - B - 1 + B := by omega
        have h2 : n + B - 1 = n - 1 + B := by omega
        have h3 : n - 1 = n - 1 - B + B := by omega
        rw [h1, Nat.add_div_right _ (by omega), h2, Nat.add_div_right _ (by omega), h3,
          Nat.add_div_right _ (by omega)]
        have h4 : n - B - 1 = n - 1 - B := by omega
        rw [h4]
      · have h1 : n - B = 0 := by omega
        have h2 : n + B - 1 = n - 1 + B := by omega
        rw [h1, h2, Nat.add_div_right _ (by omega)]
        have h3 : (0 + B - 1) / B = 0 := Nat.div_eq_of_lt (by omega)
        have h4 : (n - 1) / B = 0 := Nat.div_eq_of_lt (by omega)
        rw [h3, h4]

/-- Auxiliary: the batches concatenate back to the id queue — each id is
requested exactly once. -/
theorem fetchBatches_join (B : Nat) (hB : 1 ≤ B) :
    ∀ n (ids : List Nat), ids.length = n → (fetchBatches B ids).flatten = ids := by
  intro n
  induction n using Nat.strong_induction_on with
  | _ n ih =>
    intro ids hlen
    by_cases hnil : ids = []
    · subst hnil
      rw [fetchBatches_degenerate B [] (Or.inl rfl)]
      simp
    · have hpos : 0 < n := by
        rw [← hlen]
        exact List.length_pos.mpr hnil
      rw [fetchBatches_cons B ids hnil (by omega), List.flatten_cons,
        ih (n - B) (by omega) (ids.drop B) (by rw [List.length_drop, hlen]),
        List.take_append_drop]

/-- Auxiliary: each batch requests at most `B` ids. -/
theorem fetchBatches_width (B : Nat) :
    ∀ n (ids : List Nat), ids.length = n →
      ∀ b ∈ fetchBatches B ids, b.length ≤ B := by
  intro n
  induction n using Nat.strong_induction_on with
  | _ n ih =>
    intro ids hlen b hb
    by_cases hdeg : ids = [] ∨ B = 0
    · rw [fetchBatches_degenerate B ids hdeg] at hb
      cases hb
    · push_neg at hdeg
      have hpos : 0 < n := by
        rw [← hlen]
        exact List.length_pos.mpr hdeg.1
      rw [fetchBatches_cons B ids hdeg.1 hdeg.2] at hb
      rcases List.mem_cons.mp hb with h | h
      · subst h
        simp [List.length_take]
      · exact ih (n - B) (by omega) (ids.drop B) (by rw [List.length_drop, hlen]) b h

/-- C9: with `n` distinct referenced ids and fetch batch size `B ≥ 1`, the
fetch loop of `epoch_to_version` performs exactly `⌈n / B⌉` batched queries,
each requesting at most `B` ids, together requesting every id exactly once;
and the fetched rows are exactly the registry rows whose id was requested (so
with `B = 2` and five ids, three fetches occur and all five are refilled —
see the witness). -/
theorem batch_fetch_boundary (B : Nat) (hB : 1 ≤ B) (ids : List Nat)
    (reg : List (Nat × SstableInfo)) :
    (fetchBatches B ids).length = (ids.length + B - 1) / B ∧
    (∀ b ∈ fetchBatches B ids, b.length ≤ B) ∧
    (fetchBatches B ids).flatten = ids ∧
    (∀ r ∈ reg, r.1 ∈ ids → r ∈ fetchRows reg B ids) ∧
    (∀ r ∈ fetchRows reg B ids, r ∈ reg ∧ r.1 ∈ ids) := by
  have hjoin := fetchBatches_join B hB ids.length ids rfl
  refine ⟨fetchBatches_length B hB ids.length ids rfl,
    fetchBatches_width B ids.length ids rfl, hjoin, ?_, ?_⟩
  · intro r hr hid
    rw [← hjoin] at hid
    rcases List.mem_flatten.mp hid with ⟨b, hb, hrb⟩
    rw [fetchRows]
    exact List.mem_flatMap.mpr ⟨b, hb, List.mem_filter.mpr ⟨hr, by simpa using hrb⟩⟩
  · intro r hr
    rw [fetchRows] at hr
    rcases List.mem_flatMap.mp hr with ⟨b, hb, hrb⟩
    have := List.mem_filter.mp hrb
    refine ⟨this.1, ?_⟩
    rw [← hjoin]
    exact List.mem_flatten.mpr ⟨b, hb, by simpa using this.2⟩

/-- Witness for C9 at batch size 2 and five distinct ids: exactly three
batched fetches occur and the five registry rows are all fetched. -/
theorem batch_fetch_boundary_witness :
    1 ≤ 2 ∧
    ((fetchBatches 2 [1, 2, 3, 4, 5]).length = ([1, 2, 3, 4, 5].length + 2 - 1) / 2 ∧
      (∀ b ∈ fetchBatches 2 [1, 2, 3, 4, 5], b.length ≤ 2) ∧
      (fetchBatches 2 [1, 2, 3, 4, 5]).flatten = [1, 2, 3, 4, 5] ∧
      (∀ r ∈ regEx, r.1 ∈ [1, 2, 3, 4, 5] → r ∈ fetchRows regEx 2 [1, 2, 3, 4, 5]) ∧
      (∀ r ∈ fetchRows regEx 2 [1, 2, 3, 4, 5], r ∈ regEx ∧ r.1 ∈ [1, 2, 3, 4, 5])) :=
  ⟨by decide, batch_fetch_boundary 2 (by decide) [1, 2, 3, 4, 5] regEx⟩

/-- Auxiliary: the advance loop only raises the id to the target, leaving
every other field untouched. -/
theorem advanceTo_eq_max (v : HummockVersion) (t : Nat) :
    advanceTo v t = { v with id := max v.id t } := by
  by_cases h : v.id < t
  · rw [advanceTo, if_pos h, advanceTo_eq_max { v with id := v.id + 1 } t]
    have hmax : max (v.id + 1) t = max v.id t := by omega
    simp [hmax]
  · rw [advanceTo, if_neg h]
    have hmax : max v.id t = v.id := by omega
    simp [hmax]
termination_by t - v.id
decreasing_by omega

/-- Auxiliary: the id of a replayed chain is the id of its last delta. -/
theorem replay_archive_last_id (v : HummockVersion) (ds : List HummockVersionDelta)
    (hne : ds ≠ []) : (replay_archive v ds).id = (ds.getLast hne).id := by
  induction ds generalizing v with
  | nil => exact absurd rfl hne
  | cons d rest ih =>
    cases rest with
    | nil =>
      simp [replay_archive, replayStep, applyVersionDelta, List.getLast]
    | cons d2 rest2 =>
      rw [replay_archive, List.foldl_cons, List.getLast_cons (by simp)]
      exact ih (replayStep v d) (by simp)

/-- C4: delta replay traverses unarchived pure-compaction spans by advancing
the running id one at a time with no other content change until it equals the
next delta's `prev_id`, only then applies the delta's content, and the final
replayed version carries the id of the last delta of the chain (the target
version id). -/
theorem replay_gap_traversal (v : HummockVersion) (ds : List HummockVersionDelta)
    (hne : ds ≠ []) :
    (∀ w : HummockVersion, ∀ t : Nat, w.id < t →
      advanceTo w t = advanceTo { w with id := w.id + 1 } t) ∧
    (∀ w : HummockVersion, ∀ t : Nat, w.id ≤ t → advanceTo w t = { w with id := t }) ∧
    (∀ (w : HummockVersion) (d : HummockVersionDelta),
      replayStep w d = applyVersionDelta (advanceTo w d.prev_id) d) ∧
    (replay_archive v ds).id = (ds.getLast hne).id := by
  refine ⟨?_, ?_, fun w d => rfl, replay_archive_last_id v ds hne⟩
  · intro w t h
    rw [advanceTo_eq_max, advanceTo_eq_max]
    have hmax : max (w.id + 1) t = max w.id t := by omega
    simp [hmax]
  · intro w t h
    rw [advanceTo_eq_max]
    have hmax : max w.id t = t := by omega
    rw [hmax]

/-- Witness for C4 on a one-delta chain whose `prev_id` is ahead of the
keyframe id. -/
theorem replay_gap_traversal_witness :
    ([dGoodEx] ≠ []) ∧ (replay_archive vEmptyEx [dGoodEx]).id = dGoodEx.id := by
  have h := (replay_gap_traversal vEmptyEx [dGoodEx] (by simp)).2.2.2
  exact ⟨by simp, by simpa using h⟩

/-- Counterexample for C5 as stated: re-executing a successful
`write_time_travel_metadata` with the same version and delta does not succeed
— the EpochIndex append is a plain insert on the `epoch` primary key, so the
second execution fails with a unique-key violation. -/
theorem write_retry_counterexample :
    writeTimeTravelMetadata dbEmpty none dGoodEx = Except.ok dbAfterWriteEx ∧
    writeTimeTravelMetadata dbAfterWriteEx none dGoodEx = Except.error Err.uniqueViolation ∧
    (Except.error Err.uniqueViolation ≠
      (Except.ok dbAfterWriteEx : Except Err Db)) := by
  refine ⟨by decide, by decide, by decide⟩

/-- C5 (amended): the keyframe, delta and registry inserts of
`write_time_travel_metadata` are idempotent, but the EpochIndex append is a
plain insert keyed by epoch: after a previous successful execution, a second
execution with the same version and delta fails with a duplicate-key
violation, the transaction aborts, and the persisted state stays exactly the
state left by the single successful execution.  (Retry is therefore safe
after a failed — rolled back — attempt, not after a success.) -/
theorem write_retry_amended (db : Db) (version : Option HummockVersion)
    (delta : HummockVersionDelta) (db2 : Db)
    (h : writeTimeTravelMetadata db version delta = Except.ok db2) :
    writeTimeTravelMetadata db2 version delta = Except.error Err.uniqueViolation ∧
    persistedAfter db2 (writeTimeTravelMetadata db2 version delta) = db2 ∧
    (∀ reg f, insertSstableInfo (insertSstableInfo reg f) f = insertSstableInfo reg f) ∧
    (∀ kfs vid vv, insertKeyframe (insertKeyframe kfs vid vv) vid vv = insertKeyframe kfs vid vv) ∧
    (∀ dl vid dd, insertDeltaRow (insertDeltaRow dl vid dd) vid dd = insertDeltaRow dl vid dd) := by
  have hany : db.epochIndex.any (fun r => r.1 == delta.max_committed_epoch) = false := by
    by_contra hc
    rw [writeTimeTravelMetadata] at h
    simp only [Bool.not_eq_false] at hc
    rw [if_pos hc] at h
    cases h
  have hidx : db2.epochIndex = db.epochIndex ++ [(delta.max_committed_epoch, delta.id)] := by
    rw [writeTimeTravelMetadata, if_neg (by rw [hany]; simp)] at h
    cases hsd : stripDelta delta with
    | none =>
      rw [hsd] at h
      cases h
    | some sd =>
      rw [hsd] at h
      cases version with
      | none =>
        cases h
        rfl
      | some vv =>
        cases h
        rfl
  have hfail : writeTimeTravelMetadata db2 version delta = Except.error Err.uniqueViolation := by
    rw [writeTimeTravelMetadata, if_pos]
    rw [hidx]
    simp [List.any_append]
  refine ⟨hfail, by rw [hfail]; rfl, ?_, ?_, ?_⟩
  · intro reg f
    by_cases hc : reg.any (fun r => r.1 == f.sst_id)
    · simp [insertSstableInfo, hc]
    · simp [insertSstableInfo, hc]
  · intro kfs vid vv
    by_cases hc : kfs.any (fun r => r.1 == vid)
    · simp [insertKeyframe, hc]
    · simp [insertKeyframe, hc]
  · intro dl vid dd
    by_cases hc : dl.any (fun r => r.1 == vid)
    · simp [insertDeltaRow, hc]
    · simp [insertDeltaRow, hc]

/-- Witness for the amended C5 at the concrete write of `dGoodEx` into the
empty state. -/
theorem write_retry_amended_witness :
    writeTimeTravelMetadata dbEmpty none dGoodEx = Except.ok dbAfterWriteEx ∧
    writeTimeTravelMetadata dbAfterWriteEx none dGoodEx =
      Except.error Err.uniqueViolation :=
  ⟨by decide, (write_retry_amended dbEmpty none dGoodEx dbAfterWriteEx (by decide)).1⟩

/-- Auxiliary: `mapMOpt` after a `map` fuses. -/
theorem mapMOpt_map (f : β → Option γ) (g : α → β) (l : List α) :
    mapMOpt f (l.map g) = mapMOpt (fun a => f (g a)) l := by
  induction l with
  | nil => rfl
  | cons a rest ih => simp [mapMOpt, ih]

/-- Auxiliary: `mapMOpt` of a pointwise-identity function. -/
theorem mapMOpt_id_of (f : α → Option α) (l : List α) (h : ∀ a ∈ l, f a = some a) :
    mapMOpt f l = some l := by
  have := mapMOpt_eq_some_of f id l h
  simpa using this

/-- Auxiliary: refilling a stripped record from a map that holds its original
restores the original. -/
theorem refill_stripped_sstable (m : List (Nat × SstableInfo)) (s : SstableInfo)
    (h : lookupRow s.sst_id m = some s) :
    refill_sstable_info (stripped_sstable_info s) m = some s := by
  simpa [refill_sstable_info, stripped_sstable_info] using h

/-- Auxiliary: refilling a stripped level restores the original level. -/
theorem refill_stripped_level (m : List (Nat × SstableInfo)) (l : Level)
    (h : ∀ s ∈ l.table_infos, lookupRow s.sst_id m = some s) :
    refill_level (stripped_level l) m = some l := by
  have hmm : mapMOpt (fun s => refill_sstable_info s m)
      (l.table_infos.map stripped_sstable_info) = some l.table_infos := by
    rw [mapMOpt_map]
    exact mapMOpt_id_of _ _ (fun s hs => refill_stripped_sstable m s (h s hs))
  simp only [refill_level, stripped_level, hmm]

/-- Auxiliary: refilling a stripped group level structure restores the
original, when L0 is present and the deprecated `member_table_ids` is empty. -/
theorem refill_stripped_levels (m : List (Nat × SstableInfo)) (ls : Levels)
    (o : OverlappingLevel) (hl0 : ls.l0 = some o) (hmti : ls.member_table_ids = [])
    (hsub : ∀ l ∈ o.sub_levels, ∀ s ∈ l.table_infos, lookupRow s.sst_id m = some s)
    (hlv : ∀ l ∈ ls.levels, ∀ s ∈ l.table_infos, lookupRow s.sst_id m = some s) :
    refill_levels (stripped_levels ls) m = some ls := by
  have hsubs : mapMOpt (fun l => refill_level l m)
      (o.sub_levels.map stripped_level) = some o.sub_levels := by
    rw [mapMOpt_map]
    exact mapMOpt_id_of _ _ (fun l hl => refill_stripped_level m l (hsub l hl))
  have hlvls : mapMOpt (fun l => refill_level l m)
      (ls.levels.map stripped_level) = some ls.levels := by
    rw [mapMOpt_map]
    exact mapMOpt_id_of _ _ (fun l hl => refill_stripped_level m l (hlv l hl))
  obtain ⟨lv, l0f, gid, pgid, mti⟩ := ls
  simp only at hl0 hmti hlvls
  subst hl0 hmti
  obtain ⟨subs, tfs, ufs⟩ := o
  simp only at hsubs
  simp [refill_levels, stripped_levels, stripped_l0, hsubs, hlvls]

/-- Auxiliary: refilling a stripped change log restores the original log. -/
theorem refill_stripped_change_log (m : List (Nat × SstableInfo))
    (log : List EpochNewChangeLog)
    (h : ∀ c ∈ log, (∀ s ∈ c.old_value, lookupRow s.sst_id m = some s) ∧
      (∀ s ∈ c.new_value, lookupRow s.sst_id m = some s)) :
    refill_table_change_log (log.map stripped_epoch_new_change_log) m = some log := by
  rw [refill_table_change_log, mapMOpt_map]
  apply mapMOpt_id_of
  intro c hc
  have ho : mapMOpt (fun s => refill_sstable_info s m)
      (c.old_value.map stripped_sstable_info) = some c.old_value := by
    rw [mapMOpt_map]
    exact mapMOpt_id_of _ _ (fun s hs => refill_stripped_sstable m s ((h c hc).1 s hs))
  have hn : mapMOpt (fun s => refill_sstable_info s m)
      (c.new_value.map stripped_sstable_info) = some c.new_value := by
    rw [mapMOpt_map]
    exact mapMOpt_id_of _ _ (fun s hs => refill_stripped_sstable m s ((h c hc).2 s hs))
  simp only [stripped_epoch_new_change_log, ho, hn]

/-- Counterexample for C2 as stated: a version with no file references (so
every referenced id is trivially present in the empty registry map) whose
levels carry a non-empty deprecated `member_table_ids` list does not round
trip — stripping resets that field to its default and refilling does not
restore it. -/
theorem strip_refill_counterexample :
    (∀ s ∈ vBadEx.sstInfoList, lookupRow s.sst_id ([] : List (Nat × SstableInfo)) = some s) ∧
    refill_version (stripVersion vBadEx) [] ≠ some vBadEx := by
  exact ⟨by decide, by decide⟩

/-- C2 (amended): for every version whose groups all have an L0 structure
present and an empty (default) deprecated `member_table_ids` list, and whose
referenced file ids are all mapped to their original full records, refilling
the stripped form restores the version exactly. -/
theorem strip_refill_round_trip (v : HummockVersion) (m : List (Nat × SstableInfo))
    (hwf : ∀ r ∈ v.levels, r.2.l0.isSome ∧ r.2.member_table_ids = [])
    (hm : ∀ s ∈ v.sstInfoList, lookupRow s.sst_id m = some s) :
    refill_version (stripVersion v) m = some v := by
  have hlv : mapMOpt (fun r : Nat × Levels => (refill_levels r.2 m).map (fun ls => (r.1, ls)))
      (v.levels.map (fun r => (r.1, stripped_levels r.2))) = some v.levels := by
    rw [mapMOpt_map]
    apply mapMOpt_id_of
    intro r hr
    obtain ⟨o, ho⟩ := Option.isSome_iff_exists.mp (hwf r hr).1
    have hmem : ∀ l, (l ∈ o.sub_levels ∨ l ∈ r.2.levels) →
        ∀ s ∈ l.table_infos, lookupRow s.sst_id m = some s := by
      intro l hl s hs
      apply hm
      rw [HummockVersion.sstInfoList]
      apply List.mem_append_left
      apply List.mem_flatMap.mpr
      refine ⟨r, hr, ?_⟩
      rw [ho]
      rcases hl with hl | hl
      · exact List.mem_append_left _ (List.mem_flatMap.mpr ⟨l, hl, hs⟩)
      · exact List.mem_append_right _ (List.mem_flatMap.mpr ⟨l, hl, hs⟩)
    rw [refill_stripped_levels m r.2 o ho (hwf r hr).2
      (fun l hl => hmem l (Or.inl hl)) (fun l hl => hmem l (Or.inr hl))]
    rfl
  have hcl : mapMOpt (fun r : Nat × List EpochNewChangeLog =>
        (refill_table_change_log r.2 m).map (fun l => (r.1, l)))
      (v.table_change_log.map (fun r => (r.1, r.2.map stripped_epoch_new_change_log)))
      = some v.table_change_log := by
    rw [mapMOpt_map]
    apply mapMOpt_id_of
    intro r hr
    have hmem : ∀ c ∈ r.2, (∀ s ∈ c.old_value, lookupRow s.sst_id m = some s) ∧
        (∀ s ∈ c.new_value, lookupRow s.sst_id m = some s) := by
      intro c hc
      constructor <;> intro s hs
      · apply hm
        rw [HummockVersion.sstInfoList]
        exact List.mem_append_right _ (List.mem_flatMap.mpr ⟨r, hr,
          List.mem_flatMap.mpr ⟨c, hc, List.mem_append_left _ hs⟩⟩)
      · apply hm
        rw [HummockVersion.sstInfoList]
        exact List.mem_append_right _ (List.mem_flatMap.mpr ⟨r, hr,
          List.mem_flatMap.mpr ⟨c, hc, List.mem_append_right _ hs⟩⟩)
    rw [refill_stripped_change_log m r.2 hmem]
    rfl
  simp only [refill_version, stripVersion, hlv, hcl]

/-- Witness for the amended C2 at a version with an L0 sub-level, a sorted
level and a change-log entry over files 1..4. -/
theorem strip_refill_round_trip_witness :
    ((∀ r ∈ vGoodEx.levels, r.2.l0.isSome ∧ r.2.member_table_ids = []) ∧
      (∀ s ∈ vGoodEx.sstInfoList, lookupRow s.sst_id mGoodEx = some s)) ∧
    refill_version (stripVersion vGoodEx) mGoodEx = some vGoodEx :=
  ⟨⟨by decide, by decide⟩, strip_refill_round_trip vGoodEx mGoodEx (by decide) (by decide)⟩

/-- Auxiliary: the max-selection query returns nothing exactly when no row
satisfies the bound. -/
theorem selMax_none_iff (p : Nat → Bool) (l : List (Nat × α)) :
    selMax p l = none ↔ ∀ r ∈ l, ¬ p r.1 = true := by
  induction l with
  | nil => simp [selMax]
  | cons x rest ih =>
    rw [selMax]
    cases hs : selMax p rest with
    | none =>
      by_cases hp : p x.1 = true
      · simp only [hp, if_true]
        constructor
        · intro hc
          cases hc
        · intro hc
          exact absurd hp (hc x (List.mem_cons_self x rest))
      · simp only [hp, if_false]
        rw [hs] at ih
        constructor
        · intro _ r hr
          rcases List.mem_cons.mp hr with h | h
          · subst h
            exact hp
          · exact (ih.mp rfl) r h
        · intro _
          rfl
    | some s =>
      have hsome : ¬ ∀ r ∈ rest, ¬ p r.1 = true := by
        intro hc
        rw [← ih, hs] at hc
        cases hc
      constructor
      · intro hc
        by_cases hp : p x.1 = true <;> simp [hp] at hc
        split at hc <;> cases hc
      · intro hc
        exact absurd (fun r hr => hc r (List.mem_cons_of_mem x hr)) hsome

/-- Auxiliary: a returned row is a member satisfying the bound. -/
theorem selMax_mem (p : Nat → Bool) (l : List (Nat × α)) (r : Nat × α)
    (h : selMax p l = some r) : r ∈ l ∧ p r.1 = true := by
  induction l generalizing r with
  | nil => cases h
  | cons x rest ih =>
    rw [selMax] at h
    cases hs : selMax p rest with
    | none =>
      simp only [hs] at h
      by_cases hp : p x.1 = true
      · rw [if_pos hp] at h
        cases h
        exact ⟨List.mem_cons_self x rest, hp⟩
      · rw [if_neg hp] at h
        cases h
    | some s =>
      simp only [hs] at h
      by_cases hp : p x.1 = true
      · rw [if_pos hp] at h
        by_cases hle : s.1 ≤ x.1
        · rw [if_pos hle] at h
          cases h
          exact ⟨List.mem_cons_self x rest, hp⟩
        · rw [if_neg hle] at h
          cases h
          obtain ⟨hm, hps⟩ := ih r hs
          exact ⟨List.mem_cons_of_mem x hm, hps⟩
      · rw [if_neg hp] at h
        cases h
        obtain ⟨hm, hps⟩ := ih r hs
        exact ⟨List.mem_cons_of_mem x hm, hps⟩

/-- Auxiliary: a returned row has the greatest key among rows satisfying the
bound. -/
theorem selMax_maximal (p : Nat → Bool) (l : List (Nat × α)) (r : Nat × α)
    (h : selMax p l = some r) : ∀ x ∈ l, p x.1 = true → x.1 ≤ r.1 := by
  induction l generalizing r with
  | nil => cases h
  | cons x rest ih =>
    intro y hy hpy
    rw [selMax] at h
    cases hs : selMax p rest with
    | none =>
      simp only [hs] at h
      by_cases hp : p x.1 = true
      · rw [if_pos hp] at h
        cases h
        rcases List.mem_cons.mp hy with hc | hc
        · subst hc
          omega
        · exact absurd hpy ((selMax_none_iff p rest).mp hs y hc)
      · rw [if_neg hp] at h
        cases h
    | some s =>
      simp only [hs] at h
      by_cases hp : p x.1 = true
      · rw [if_pos hp] at h
        by_cases hle : s.1 ≤ x.1
        · rw [if_pos hle] at h
          cases h
          rcases List.mem_cons.mp hy with hc | hc
          · subst hc
            omega
          · have := ih s hs y hc hpy
            omega
        · rw [if_neg hle] at h
          cases h
          rcases List.mem_cons.mp hy with hc | hc
          · subst hc
            omega
          · exact ih r hs y hc hpy
      · rw [if_neg hp] at h
        cases h
        rcases List.mem_cons.mp hy with hc | hc
        · subst hc
          exact absurd hpy hp
        · exact ih r hs y hc hpy

/-- Auxiliary: the selection is stable under filtering the table by a
predicate the selected row satisfies. -/
theorem selMax_filter (p : Nat → Bool) (q : Nat × α → Bool) (l : List (Nat × α))
    (r : Nat × α) (h : selMax p l = some r) (hq : q r = true) :
    selMax p (l.filter q) = some r := by
  induction l generalizing r with
  | nil => cases h
  | cons x rest ih =>
    rw [selMax] at h
    cases hs : selMax p rest with
    | none =>
      simp only [hs] at h
      by_cases hp : p x.1 = true
      · rw [if_pos hp] at h
        cases h
        have hfilt : selMax p (rest.filter q) = none := by
          rw [selMax_none_iff]
          intro y hy
          exact (selMax_none_iff p rest).mp hs y (List.mem_of_mem_filter hy)
        rw [List.filter_cons, if_pos hq, selMax, hfilt, if_pos hp]
      · rw [if_neg hp] at h
        cases h
    | some s =>
      simp only [hs] at h
      by_cases hp : p x.1 = true
      · rw [if_pos hp] at h
        by_cases hle : s.1 ≤ x.1
        · rw [if_pos hle] at h
          cases h
          rw [List.filter_cons, if_pos hq, selMax]
          cases hf : selMax p (rest.filter q) with
          | none =>
            show (if p x.1 = true then some x else none) = some x
            rw [if_pos hp]
          | some t =>
            have ht := selMax_mem p _ t hf
            have htle : t.1 ≤ s.1 :=
              selMax_maximal p rest s hs t (List.mem_of_mem_filter ht.1) ht.2
            show (if p x.1 = true then if t.1 ≤ x.1 then some x else some t else some t)
              = some x
            rw [if_pos hp, if_pos (by omega)]
        · rw [if_neg hle] at h
          cases h
          have hrec := ih r hs hq
          rw [List.filter_cons]
          by_cases hqx : q x = true
          · rw [if_pos hqx, selMax, hrec]
            show (if p x.1 = true then if r.1 ≤ x.1 then some x else some r else some r)
              = some r
            rw [if_pos hp, if_neg hle]
          · rw [if_neg hqx, hrec]
      · rw [if_neg hp] at h
        cases h
        have hrec := ih r hs hq
        rw [List.filter_cons]
        by_cases hqx : q x = true
        · rw [if_pos hqx, selMax, hrec]
          show (if p x.1 = true then if r.1 ≤ x.1 then some x else some r else some r)
            = some r
          rw [if_neg hp]
        · rw [if_neg hqx, hrec]

/-- Auxiliary: the selection only depends on the bound's values on the table's
keys. -/
theorem selMax_congr (p q : Nat → Bool) (l : List (Nat × α))
    (h : ∀ r ∈ l, p r.1 = q r.1) : selMax p l = selMax q l := by
  induction l with
  | nil => rfl
  | cons x rest ih =>
    rw [selMax, selMax, ih (fun r hr => h r (List.mem_cons_of_mem x hr)),
      h x (List.mem_cons_self x rest)]

/-- Counterexample for C3 as stated: with indexed epochs `e1 = 1 < e2 = 3` and
`e = 2 ∈ [e1, e2)`, the resolution does not return the version committed at
`e1` — epoch 2 is also indexed, and the greatest indexed epoch at most `e`
is 2, not 1.  The claim only holds for adjacent indexed epochs. -/
theorem epoch_resolution_counterexample :
    ((1, 1) ∈ dbC3.epochIndex ∧ (3, 3) ∈ dbC3.epochIndex ∧ (1 : Nat) < 3 ∧
      (1 : Nat) ≤ 2 ∧ (2 : Nat) < 3) ∧
    epochToVersion dbC3 100 2 ≠ epochToVersion dbC3 100 1 :=
  ⟨by decide, by decide⟩

/-- C3 (amended): `epoch_to_version` resolves via the EpochIndex entry with
the greatest indexed epoch at most the query epoch, so for two indexed epochs
`e1 < e2` with no indexed epoch strictly between them, every query epoch in
`[e1, e2)` resolves exactly as a query at `e1` does (the version committed at
`e1`); and the resolution fails with the not-found error precisely when no
indexed epoch is at most the query epoch. -/
theorem epoch_resolution_amended (db : Db) (B : Nat) (e1 e2 e : Nat)
    (h1 : ∃ r ∈ db.epochIndex, r.1 = e1)
    (h2 : ∃ r ∈ db.epochIndex, r.1 = e2)
    (he1 : e1 ≤ e) (he2 : e < e2)
    (hadj : ∀ r ∈ db.epochIndex, ¬ (e1 < r.1 ∧ r.1 < e2)) :
    epochToVersion db B e = epochToVersion db B e1 ∧
    (∀ q : Nat, epochToVersion db B q = Except.error Err.versionNotFound ↔
      ∀ r ∈ db.epochIndex, ¬ r.1 ≤ q) := by
  constructor
  · have hsel : selMax (fun k => decide (k ≤ e)) db.epochIndex
        = selMax (fun k => decide (k ≤ e1)) db.epochIndex := by
      apply selMax_congr
      intro r hr
      rw [decide_eq_decide]
      constructor
      · intro hle
        by_contra hc
        exact hadj r hr ⟨by omega, by omega⟩
      · intro hle
        omega
    simp only [epochToVersion, hsel]
  · intro q
    cases hq : selMax (fun k => decide (k ≤ q)) db.epochIndex with
    | none =>
      constructor
      · intro _ r hr
        have := (selMax_none_iff _ _).mp hq r hr
        simpa using this
      · intro _
        simp only [epochToVersion, hq]
    | some entry =>
      constructor
      · intro hc
        exfalso
        simp only [epochToVersion, hq] at hc
        split at hc
        · simp at hc
        · split at hc
          · simp at hc
          · split at hc
            · simp at hc
            · simp at hc
      · intro hall
        exfalso
        obtain ⟨hm, hp⟩ := selMax_mem _ _ _ hq
        exact hall entry hm (by simpa using hp)

/-- Witness for the amended C3: epochs 1 and 5 indexed with nothing between,
a query at epoch 3 resolves exactly as a query at epoch 1. -/
theorem epoch_resolution_amended_witness :
    ((∃ r ∈ dbC3b.epochIndex, r.1 = 1) ∧ (∃ r ∈ dbC3b.epochIndex, r.1 = 5) ∧
      (1 : Nat) ≤ 3 ∧ (3 : Nat) < 5 ∧
      (∀ r ∈ dbC3b.epochIndex, ¬ (1 < r.1 ∧ r.1 < 5))) ∧
    epochToVersion dbC3b 100 3 = epochToVersion dbC3b 100 1 :=
  ⟨⟨by decide, by decide, by decide, by decide, by decide⟩,
   (epoch_resolution_amended dbC3b 100 1 5 3 (by decide) (by decide) (by decide)
     (by decide) (by decide)).1⟩

/-- Auxiliary: the removable-delta walk fails (with the corruption error) when
any listed delta row is missing. -/
theorem deltaDeletes_missing (ds : List (Nat × HummockVersionDelta)) (floor : Finset Nat) :
    ∀ ids : List Nat, (∃ i ∈ ids, lookupRow i ds = none) →
      deltaDeletes ds floor ids = Except.error Err.deltaRowMissing := by
  intro ids
  induction ids with
  | nil =>
    rintro ⟨i, hi, _⟩
    cases hi
  | cons j rest ih =>
    rintro ⟨i, hi, hnone⟩
    rw [deltaDeletes]
    rcases List.mem_cons.mp hi with hc | hc
    · subst hc
      rw [hnone]
    · cases hj : lookupRow j ds with
      | none => rfl
      | some d =>
        simp only [hj, ih ⟨i, hc, hnone⟩]

/-- Auxiliary: the removable-delta walk only ever fails with the corruption
error. -/
theorem deltaDeletes_error_shape (ds : List (Nat × HummockVersionDelta)) (floor : Finset Nat) :
    ∀ ids er, deltaDeletes ds floor ids = Except.error er → er = Err.deltaRowMissing := by
  intro ids
  induction ids with
  | nil =>
    intro er h
    cases h
  | cons j rest ih =>
    intro er h
    rw [deltaDeletes] at h
    cases hj : lookupRow j ds with
    | none =>
      simp only [hj] at h
      cases h
      rfl
    | some d =>
      simp only [hj] at h
      cases hr : deltaDeletes ds floor rest with
      | error e2 =>
        simp only [hr] at h
        cases h
        exact ih er hr
      | ok tail =>
        simp only [hr] at h
        cases h

/-- Auxiliary: the removable-keyframe walk fails (with the corruption error)
when any listed keyframe row is missing. -/
theorem chainDeletes_missing (kfs : List (Nat × HummockVersion)) :
    ∀ (ids : List Nat) (next : Finset Nat), (∃ i ∈ ids, lookupRow i kfs = none) →
      chainDeletes kfs next ids = Except.error Err.kfRowMissing := by
  intro ids
  induction ids with
  | nil =>
    rintro next ⟨i, hi, _⟩
    cases hi
  | cons j rest ih =>
    rintro next ⟨i, hi, hnone⟩
    rw [chainDeletes]
    rcases List.mem_cons.mp hi with hc | hc
    · subst hc
      rw [hnone]
    · cases hj : lookupRow j kfs with
      | none => rfl
      | some v =>
        simp only [hj, ih (HummockVersion.sstIdSet v) ⟨i, hc, hnone⟩]

/-- Auxiliary: the removable-keyframe walk only ever fails with the corruption
error. -/
theorem chainDeletes_error_shape (kfs : List (Nat × HummockVersion)) :
    ∀ (ids : List Nat) (next : Finset Nat) er,
      chainDeletes kfs next ids = Except.error er → er = Err.kfRowMissing := by
  intro ids
  induction ids with
  | nil =>
    intro next er h
    cases h
  | cons j rest ih =>
    intro next er h
    rw [chainDeletes] at h
    cases hj : lookupRow j kfs with
    | none =>
      simp only [hj] at h
      cases h
      rfl
    | some v =>
      simp only [hj] at h
      cases hr : chainDeletes kfs (HummockVersion.sstIdSet v) rest with
      | error e2 =>
        simp only [hr] at h
        cases h
        exact ih (HummockVersion.sstIdSet v) er hr
      | ok tail =>
        simp only [hr] at h
        cases h

/-- Auxiliary: the delete-set computation only ever fails with a
corruption-class error. -/
theorem computeDeleteSets_error_shape (db : Db) (evv : Nat) (kfIds deltaIds : List Nat)
    (er : Err) (h : computeDeleteSets db evv kfIds deltaIds = Except.error er) :
    er.isCorruption := by
  rw [computeDeleteSets] at h
  cases hk : lookupRow evv db.keyframes with
  | none =>
    simp only [hk] at h
    cases h
    trivial
  | some kv =>
    simp only [hk] at h
    cases hdd : deltaDeletes db.deltas (HummockVersion.sstIdSet kv) deltaIds with
    | error e2 =>
      simp only [hdd] at h
      cases h
      rw [deltaDeletes_error_shape db.deltas (HummockVersion.sstIdSet kv) deltaIds er hdd]
      trivial
    | ok dd =>
      simp only [hdd] at h
      cases hcd : chainDeletes db.keyframes (HummockVersion.sstIdSet kv) kfIds with
      | error e3 =>
        simp only [hcd] at h
        cases h
        rw [chainDeletes_error_shape db.keyframes kfIds (HummockVersion.sstIdSet kv) er hcd]
        trivial
      | ok kd =>
        simp only [hcd] at h
        cases h

/-- C6: truncation is atomic on error.  If an expected keyframe or delta row
is missing while computing the reachable file-id sets (steps 5–7), the
computation returns a corruption-class error; and whenever the whole
operation errors, the error is corruption-class and nothing is committed —
the persisted state is exactly the pre-call state. -/
theorem truncate_atomic_on_missing (db : Db) (w evv : Nat)
    (kfIds deltaIds : List Nat) :
    ((lookupRow evv db.keyframes = none ∨
        (∃ i ∈ deltaIds, lookupRow i db.deltas = none) ∨
        (∃ i ∈ kfIds, lookupRow i db.keyframes = none)) →
      ∃ er, computeDeleteSets db evv kfIds deltaIds = Except.error er ∧ er.isCorruption) ∧
    (∀ er, truncateTimeTravelMetadata db w = Except.error er →
      er.isCorruption ∧ persistedAfter db (truncateTimeTravelMetadata db w) = db) := by
  constructor
  · intro hmiss
    cases hcd : computeDeleteSets db evv kfIds deltaIds with
    | error er => exact ⟨er, rfl, computeDeleteSets_error_shape db evv kfIds deltaIds er hcd⟩
    | ok dd =>
      exfalso
      rw [computeDeleteSets] at hcd
      cases hk : lookupRow evv db.keyframes with
      | none =>
        simp only [hk] at hcd
        cases hcd
      | some kv =>
        simp only [hk] at hcd
        rcases hmiss with hmiss | hmiss | hmiss
        · rw [hk] at hmiss
          cases hmiss
        · rw [deltaDeletes_missing db.deltas (HummockVersion.sstIdSet kv) deltaIds hmiss]
            at hcd
          cases hcd
        · cases hdd : deltaDeletes db.deltas (HummockVersion.sstIdSet kv) deltaIds with
          | error e2 =>
            simp only [hdd] at hcd
            cases hcd
          | ok dd2 =>
            simp only [hdd] at hcd
            rw [chainDeletes_missing db.keyframes kfIds (HummockVersion.sstIdSet kv) hmiss]
              at hcd
            cases hcd
  · intro er her
    have hpa : persistedAfter db (truncateTimeTravelMetadata db w) = db := by
      rw [her]
      rfl
    refine ⟨?_, hpa⟩
    rw [truncateTimeTravelMetadata] at her
    cases hvw : selMax (fun e => decide (e < w)) db.epochIndex with
    | none =>
      simp only [hvw] at her
      cases her
    | some vw =>
      simp only [hvw] at her
      cases hkf : selMax (fun k => decide (k ≤ vw.2)) db.keyframes with
      | none =>
        simp only [hkf] at her
        cases her
      | some kfA =>
        simp only [hkf] at her
        cases hcd : computeDeleteSets db kfA.1
            (sortDesc ((db.keyframes.map (fun r => r.1)).filter (fun i => decide (i < kfA.1))))
            ((db.deltas.map (fun r => r.1)).filter (fun i => decide (i < kfA.1))) with
        | error e2 =>
          simp only [hcd] at her
          cases her
          exact computeDeleteSets_error_shape db kfA.1 _ _ er hcd
        | ok delIds =>
          simp only [hcd] at her
          cases her

/-- Witness for C6: a dangling anchor id (no keyframe 99) makes the delete-set
computation fail with a corruption-class error. -/
theorem truncate_atomic_on_missing_witness :
    lookupRow 99 dbC3.keyframes = none ∧
    (∃ er, computeDeleteSets dbC3 99 [] [] = Except.error er ∧ er.isCorruption) :=
  ⟨by decide, (truncate_atomic_on_missing dbC3 0 99 [] []).1 (Or.inl (by decide))⟩

/-- Auxiliary: a successful keyed lookup returns a member row. -/
theorem lookupRow_mem (k : Nat) (l : List (Nat × α)) (v : α) (h : lookupRow k l = some v) :
    (k, v) ∈ l := by
  induction l with
  | nil => cases h
  | cons r rest ih =>
    rw [lookupRow] at h
    by_cases hc : r.1 = k
    · rw [if_pos hc] at h
      cases h
      subst hc
      exact List.mem_cons_self r rest
    · rw [if_neg hc] at h
      exact List.mem_cons_of_mem r (ih h)

/-- Auxiliary: with unique keys, a member row is what its key looks up to. -/
theorem lookupRow_of_mem_nodup (l : List (Nat × α)) (hnd : (l.map Prod.fst).Nodup)
    (k : Nat) (v : α) (h : (k, v) ∈ l) : lookupRow k l = some v := by
  induction l with
  | nil => cases h
  | cons r rest ih =>
    rw [List.map_cons, List.nodup_cons] at hnd
    rw [lookupRow]
    rcases List.mem_cons.mp h with hc | hc
    · rw [← hc]
      simp
    · by_cases hk : r.1 = k
      · exfalso
        apply hnd.1
        rw [hk]
        exact List.mem_map.mpr ⟨(k, v), hc, rfl⟩
      · rw [if_neg hk]
        exact ih hnd.2 hc

/-- Auxiliary: membership of descending insertion. -/
theorem mem_insertDesc (x : Nat) (l : List Nat) :
    ∀ y, y ∈ insertDesc x l ↔ y = x ∨ y ∈ l := by
  induction l with
  | nil =>
    intro y
    simp [insertDesc]
  | cons z rest ih =>
    intro y
    rw [insertDesc]
    by_cases hc : z ≤ x
    · simp [hc]
    · simp only [hc, if_false, List.mem_cons, ih y]
      tauto

/-- Auxiliary: sorting descending preserves membership. -/
theorem mem_sortDesc (l : List Nat) : ∀ x, x ∈ sortDesc l ↔ x ∈ l := by
  induction l with
  | nil =>
    intro x
    simp [sortDesc]
  | cons a rest ih =>
    intro x
    show x ∈ insertDesc a (sortDesc rest) ↔ _
    rw [mem_insertDesc, ih x, List.mem_cons]

/-- Auxiliary: every id newly added (beyond the floor) by a listed removable
delta lands in the computed delete set. -/
theorem deltaDeletes_sound (ds : List (Nat × HummockVersionDelta)) (floor : Finset Nat) :
    ∀ ids dd, deltaDeletes ds floor ids = Except.ok dd →
      ∀ i ∈ ids, ∀ d, lookupRow i ds = some d →
        ∀ x ∈ d.newlyAddedSstIds, x ∉ floor → x ∈ dd := by
  intro ids
  induction ids with
  | nil =>
    intro dd h i hi
    cases hi
  | cons j rest ih =>
    intro dd h i hi d hd x hx hxf
    rw [deltaDeletes] at h
    cases hj : lookupRow j ds with
    | none =>
      simp only [hj] at h
      cases h
    | some dj =>
      simp only [hj] at h
      cases hr : deltaDeletes ds floor rest with
      | error e =>
        simp only [hr] at h
        cases h
      | ok tail =>
        simp only [hr] at h
        cases h
        rcases List.mem_cons.mp hi with hc | hc
        · subst hc
          rw [hd] at hj
          cases hj
          exact Finset.mem_union_left _ (Finset.mem_sdiff.mpr ⟨hx, hxf⟩)
        · exact Finset.mem_union_right _ (ih tail hr i hc d hd x hx hxf)

/-- Auxiliary: every id of a listed removable keyframe lands in the computed
delete set or in the running `next` set the walk started from. -/
theorem chainDeletes_sound (kfs : List (Nat × HummockVersion)) :
    ∀ ids (next : Finset Nat) kd, chainDeletes kfs next ids = Except.ok kd →
      ∀ i ∈ ids, ∀ v, lookupRow i kfs = some v →
        ∀ x ∈ HummockVersion.sstIdSet v, x ∈ kd ∨ x ∈ next := by
  intro ids
  induction ids with
  | nil =>
    intro next kd h i hi
    cases hi
  | cons j rest ih =>
    intro next kd h i hi v hv x hx
    rw [chainDeletes] at h
    cases hj : lookupRow j kfs with
    | none =>
      simp only [hj] at h
      cases h
    | some vj =>
      simp only [hj] at h
      cases hr : chainDeletes kfs (HummockVersion.sstIdSet vj) rest with
      | error e =>
        simp only [hr] at h
        cases h
      | ok tail =>
        simp only [hr] at h
        cases h
        rcases List.mem_cons.mp hi with hc | hc
        · subst hc
          rw [hv] at hj
          cases hj
          by_cases hn : x ∈ next
          · exact Or.inr hn
          · exact Or.inl (Finset.mem_union_left _ (Finset.mem_sdiff.mpr ⟨hx, hn⟩))
        · rcases ih (HummockVersion.sstIdSet vj) tail hr i hc v hv x hx with hc2 | hc2
          · exact Or.inl (Finset.mem_union_right _ hc2)
          · by_cases hn : x ∈ next
            · exact Or.inr hn
            · exact Or.inl (Finset.mem_union_left _ (Finset.mem_sdiff.mpr ⟨hc2, hn⟩))

/-- C7: GC completeness.  After a committed truncation whose anchor is the
keyframe row `kfA` (the greatest keyframe id at most the version id indexed
at the greatest epoch strictly below the watermark), no keyframe or delta row
with id below the anchor remains; and no file id that is referenced only by
the removed keyframes/deltas and is not in the file set of the keyframe at
the anchor remains in the registry. -/
theorem gc_completeness (db : Db) (w : Nat) (db2 : Db)
    (vw : Nat × Nat) (kfA : Nat × HummockVersion)
    (hndd : (db.deltas.map Prod.fst).Nodup)
    (hndk : (db.keyframes.map Prod.fst).Nodup)
    (hvw : selMax (fun e => decide (e < w)) db.epochIndex = some vw)
    (hkf : selMax (fun k => decide (k ≤ vw.2)) db.keyframes = some kfA)
    (htr : truncateTimeTravelMetadata db w = Except.ok db2) :
    (∀ r ∈ db2.keyframes, kfA.1 ≤ r.1) ∧
    (∀ r ∈ db2.deltas, kfA.1 ≤ r.1) ∧
    (∀ x : Nat,
      ((∃ r ∈ db.deltas, r.1 < kfA.1 ∧ x ∈ r.2.newlyAddedSstIds) ∨
        (∃ r ∈ db.keyframes, r.1 < kfA.1 ∧ x ∈ HummockVersion.sstIdSet r.2)) →
      (∀ kv, lookupRow kfA.1 db.keyframes = some kv → x ∉ HummockVersion.sstIdSet kv) →
      ((∀ r ∈ db.deltas, kfA.1 ≤ r.1 → x ∉ r.2.newlyAddedSstIds) ∧
        (∀ r ∈ db.keyframes, kfA.1 ≤ r.1 → x ∉ HummockVersion.sstIdSet r.2)) →
      ∀ r ∈ db2.registry, r.1 ≠ x) := by
  rw [truncateTimeTravelMetadata] at htr
  simp only [hvw, hkf] at htr
  cases hcd : computeDeleteSets db kfA.1
      (sortDesc ((db.keyframes.map (fun r => r.1)).filter (fun i => decide (i < kfA.1))))
      ((db.deltas.map (fun r => r.1)).filter (fun i => decide (i < kfA.1))) with
  | error e =>
    simp only [hcd] at htr
    cases htr
  | ok delIds =>
    simp only [hcd] at htr
    cases htr
    refine ⟨?_, ?_, ?_⟩
    · intro r hr
      have h2 := (List.mem_filter.mp hr).2
      simp at h2
      omega
    · intro r hr
      have h2 := (List.mem_filter.mp hr).2
      simp at h2
      omega
    · intro x hsrc hnotF hret r hr hrx
      have hrf := List.mem_filter.mp hr
      have hnotin : r.1 ∉ delIds := by
        have h2 := hrf.2
        simpa using h2
      apply hnotin
      rw [hrx]
      rw [computeDeleteSets] at hcd
      cases hk : lookupRow kfA.1 db.keyframes with
      | none =>
        simp only [hk] at hcd
        cases hcd
      | some kv =>
        simp only [hk] at hcd
        have hF : x ∉ HummockVersion.sstIdSet kv := hnotF kv hk
        cases hdd : deltaDeletes db.deltas (HummockVersion.sstIdSet kv)
            ((db.deltas.map (fun r => r.1)).filter (fun i => decide (i < kfA.1))) with
        | error e =>
          simp only [hdd] at hcd
          cases hcd
        | ok dd =>
          simp only [hdd] at hcd
          cases hcd2 : chainDeletes db.keyframes (HummockVersion.sstIdSet kv)
              (sortDesc ((db.keyframes.map (fun r => r.1)).filter
                (fun i => decide (i < kfA.1)))) with
          | error e =>
            simp only [hcd2] at hcd
            cases hcd
          | ok kd =>
            simp only [hcd2] at hcd
            cases hcd
            rcases hsrc with ⟨rd, hrd, hlt, hx⟩ | ⟨rk, hrk, hlt, hx⟩
            · apply Finset.mem_union_left
              have hi : rd.1 ∈ (db.deltas.map (fun r => r.1)).filter
                  (fun i => decide (i < kfA.1)) :=
                List.mem_filter.mpr ⟨List.mem_map.mpr ⟨rd, hrd, rfl⟩, by simpa using hlt⟩
              have hlu : lookupRow rd.1 db.deltas = some rd.2 :=
                lookupRow_of_mem_nodup db.deltas hndd rd.1 rd.2 hrd
              exact deltaDeletes_sound db.deltas (HummockVersion.sstIdSet kv) _ dd hdd
                rd.1 hi rd.2 hlu x hx hF
            · have hi : rk.1 ∈ sortDesc ((db.keyframes.map (fun r => r.1)).filter
                  (fun i => decide (i < kfA.1))) := by
                rw [mem_sortDesc]
                exact List.mem_filter.mpr ⟨List.mem_map.mpr ⟨rk, hrk, rfl⟩, by simpa using hlt⟩
              have hlu : lookupRow rk.1 db.keyframes = some rk.2 :=
                lookupRow_of_mem_nodup db.keyframes hndk rk.1 rk.2 hrk
              rcases chainDeletes_sound db.keyframes _ (HummockVersion.sstIdSet kv) kd hcd2
                  rk.1 hi rk.2 hlu x hx with hc | hc
              · exact Finset.mem_union_right _ hc
              · exact absurd hc hF

/-- Witness for C7: truncating `db7` at watermark 25 (anchor keyframe 2)
removes keyframe 1 and file 1, which was referenced only by keyframe 1 and is
not in keyframe 2's file set. -/
theorem gc_completeness_witness :
    truncateTimeTravelMetadata db7 25 = Except.ok dbAfterTruncEx ∧
    (∀ r ∈ dbAfterTruncEx.keyframes, 2 ≤ r.1) ∧
    (∀ r ∈ dbAfterTruncEx.registry, r.1 ≠ 1) := by
  have h := gc_completeness db7 25 dbAfterTruncEx (20, 2) (2, kvB7)
    (by decide) (by decide) (by decide) (by decide) (by decide)
  refine ⟨by decide, h.1, ?_⟩
  apply h.2.2 1
  · exact Or.inr ⟨(1, kvA7), by decide, by decide, by decide⟩
  · intro kv hkv
    have h2 : lookupRow 2 db7.keyframes = some kvB7 := by decide
    rw [h2] at hkv
    cases hkv
    decide
  · exact ⟨fun rr hrr hge => by
      have : rr = (2, dGoodEx) := by
        rcases List.mem_cons.mp hrr with hc | hc
        · exact hc
        · cases hc
      rw [this]
      decide,
    fun rr hrr hge => by
      rcases List.mem_cons.mp hrr with hc | hc
      · rw [hc] at hge
        exact absurd hge (by decide)
      · rcases List.mem_cons.mp hc with hc2 | hc2
        · rw [hc2]
          decide
        · cases hc2⟩

/-- Auxiliary: an element of a positional modification is an original element
or the image of one. -/
theorem mem_modifyAt (f : α → α) :
    ∀ (n : Nat) (l : List α) (y : α), y ∈ modifyAt f n l → y ∈ l ∨ ∃ a ∈ l, y = f a := by
  intro n
  induction n with
  | zero =>
    intro l y hy
    cases l with
    | nil => cases hy
    | cons a rest =>
      rcases List.mem_cons.mp hy with hc | hc
      · exact Or.inr ⟨a, List.mem_cons_self a rest, hc⟩
      · exact Or.inl (List.mem_cons_of_mem a hc)
  | succ n ih =>
    intro l y hy
    cases l with
    | nil => cases hy
    | cons a rest =>
      rcases List.mem_cons.mp hy with hc | hc
      · exact Or.inl (hc ▸ List.mem_cons_self a rest)
      · rcases ih rest y hc with hc2 | ⟨b, hb, hfb⟩
        · exact Or.inl (List.mem_cons_of_mem a hc2)
        · exact Or.inr ⟨b, List.mem_cons_of_mem a hb, hfb⟩

/-- Auxiliary: removal only shrinks a level's id set. -/
theorem mem_removeIdsFromLevel (rm : List Nat) (l : Level) (x : Nat)
    (hx : x ∈ levelSstIds (removeIdsFromLevel rm l)) : x ∈ levelSstIds l := by
  rw [levelSstIds] at hx ⊢
  rcases List.mem_map.mp hx with ⟨s, hs, hsx⟩
  exact List.mem_map.mpr ⟨s, List.mem_of_mem_filter hs, hsx⟩

/-- Auxiliary: ids referenced after one intra-level delta come from the old
level structure or from the delta's inserted files. -/
theorem mem_applyIntraLevelDelta (ild : IntraLevelDelta) (ls : Levels) (x : Nat)
    (hx : x ∈ levelsSstIds (applyIntraLevelDelta ild ls)) :
    x ∈ levelsSstIds ls ∨ x ∈ ild.inserted_table_infos.map (fun s => s.sst_id) := by
  have hrm : ∀ (l0 : OverlappingLevel),
      ls.l0 = some l0 →
      ∀ y ∈ (l0.sub_levels.map (removeIdsFromLevel ild.removed_table_ids)).flatMap levelSstIds,
        y ∈ levelsSstIds ls := by
    intro l0 hl0 y hy
    rcases List.mem_flatMap.mp hy with ⟨l, hl, hyl⟩
    rcases List.mem_map.mp hl with ⟨l2, hl2, hll⟩
    rw [levelsSstIds, hl0]
    exact List.mem_append_left _
      (List.mem_flatMap.mpr ⟨l2, hl2, mem_removeIdsFromLevel _ _ y (hll ▸ hyl)⟩)
  have hrml : ∀ y ∈ (ls.levels.map (removeIdsFromLevel ild.removed_table_ids)).flatMap
      levelSstIds, y ∈ levelsSstIds ls := by
    intro y hy
    rcases List.mem_flatMap.mp hy with ⟨l, hl, hyl⟩
    rcases List.mem_map.mp hl with ⟨l2, hl2, hll⟩
    rw [levelsSstIds]
    exact List.mem_append_right _
      (List.mem_flatMap.mpr ⟨l2, hl2, mem_removeIdsFromLevel _ _ y (hll ▸ hyl)⟩)
  rw [applyIntraLevelDelta] at hx
  by_cases h0 : ild.level_idx = 0
  · simp only [h0, if_true, if_pos] at hx
    rw [levelsSstIds] at hx
    rcases List.mem_append.mp hx with hc | hc
    · simp only [] at hc
      cases hl0 : ls.l0 with
      | none =>
        simp only [hl0, Option.map_none, Option.getD] at hc
        rcases List.mem_flatMap.mp hc with ⟨l, hl, hyl⟩
        rcases List.mem_append.mp hl with hl2 | hl2
        · cases hl2
        · rcases List.mem_cons.mp hl2 with hl3 | hl3
          · subst hl3
            exact Or.inr hyl
          · cases hl3
      | some l0 =>
        simp only [hl0, Option.map_some, Option.getD] at hc
        rcases List.mem_flatMap.mp hc with ⟨l, hl, hyl⟩
        rcases List.mem_append.mp hl with hl2 | hl2
        · exact Or.inl (hrm l0 hl0 x (List.mem_flatMap.mpr ⟨l, hl2, hyl⟩))
        · rcases List.mem_cons.mp hl2 with hl3 | hl3
          · subst hl3
            exact Or.inr hyl
          · cases hl3
    · exact Or.inl (hrml x hc)
  · simp only [h0, if_false, if_neg] at hx
    rw [levelsSstIds] at hx
    rcases List.mem_append.mp hx with hc | hc
    · simp only [] at hc
      cases hl0 : ls.l0 with
      | none =>
        simp only [hl0, Option.map_none] at hc
        cases hc
      | some l0 =>
        simp only [hl0, Option.map_some] at hc
        exact Or.inl (hrm l0 hl0 x hc)
    · rcases List.mem_flatMap.mp hc with ⟨l, hl, hyl⟩
      rcases mem_modifyAt _ _ _ _ hl with hl2 | ⟨a, ha, hfa⟩
      · exact Or.inl (hrml x (List.mem_flatMap.mpr ⟨l, hl2, hyl⟩))
      · subst hfa
        rw [levelSstIds, List.map_append] at hyl
        rcases List.mem_append.mp hyl with hc2 | hc2
        · exact Or.inl (hrml x (List.mem_flatMap.mpr ⟨a, ha, hc2⟩))
        · exact Or.inr hc2

/-- Auxiliary: ids referenced after one group delta come from the old group
map or from the delta's inserted files. -/
theorem mem_applyGroupDelta (gid : Nat) (L : List (Nat × Levels)) (gd : GroupDelta) (x : Nat)
    (hx : x ∈ (applyGroupDelta gid L gd).flatMap (fun r => levelsSstIds r.2)) :
    x ∈ L.flatMap (fun r => levelsSstIds r.2) ∨ x ∈ gdInsertedIds gd := by
  rw [applyGroupDelta] at hx
  cases hdt : gd.delta_type with
  | none =>
    rw [hdt] at hx
    exact Or.inl hx
  | some dt =>
    cases dt with
    | intraLevel ild =>
      rw [hdt] at hx
      rcases List.mem_flatMap.mp hx with ⟨r2, hr2, hxr⟩
      rcases List.mem_map.mp hr2 with ⟨r, hr, hreq⟩
      by_cases hgid : r.1 = gid
      · rw [if_pos hgid] at hreq
        subst hreq
        rcases mem_applyIntraLevelDelta ild r.2 x hxr with hc | hc
        · exact Or.inl (List.mem_flatMap.mpr ⟨r, hr, hc⟩)
        · rw [gdInsertedIds, hdt]
          exact Or.inr hc
      · rw [if_neg hgid] at hreq
        subst hreq
        exact Or.inl (List.mem_flatMap.mpr ⟨r, hr, hxr⟩)
    | groupConstruct p =>
      rw [hdt] at hx
      rcases List.mem_flatMap.mp hx with ⟨r2, hr2, hxr⟩
      rcases List.mem_append.mp hr2 with hc | hc
      · exact Or.inl (List.mem_flatMap.mpr ⟨r2, List.mem_of_mem_filter hc, hxr⟩)
      · rcases List.mem_cons.mp hc with hc2 | hc2
        · subst hc2
          simp [levelsSstIds, emptyLevels] at hxr
        · cases hc2
    | groupDestroy p =>
      rw [hdt] at hx
      rcases List.mem_flatMap.mp hx with ⟨r2, hr2, hxr⟩
      exact Or.inl (List.mem_flatMap.mpr ⟨r2, List.mem_of_mem_filter hr2, hxr⟩)
    | groupMetaChange p =>
      rw [hdt] at hx
      exact Or.inl hx
    | groupTableChange p =>
      rw [hdt] at hx
      exact Or.inl hx

/-- Auxiliary: fold of one group's delta list. -/
theorem mem_foldl_applyGroupDelta (gid : Nat) :
    ∀ (gds : List GroupDelta) (L : List (Nat × Levels)) (x : Nat),
      x ∈ (gds.foldl (applyGroupDelta gid) L).flatMap (fun r => levelsSstIds r.2) →
      x ∈ L.flatMap (fun r => levelsSstIds r.2) ∨ ∃ gd ∈ gds, x ∈ gdInsertedIds gd := by
  intro gds
  induction gds with
  | nil =>
    intro L x hx
    exact Or.inl hx
  | cons gd rest ih =>
    intro L x hx
    rw [List.foldl_cons] at hx
    rcases ih (applyGroupDelta gid L gd) x hx with hc | ⟨gd2, hgd2, hx2⟩
    · rcases mem_applyGroupDelta gid L gd x hc with hc2 | hc2
      · exact Or.inl hc2
      · exact Or.inr ⟨gd, List.mem_cons_self gd rest, hc2⟩
    · exact Or.inr ⟨gd2, List.mem_cons_of_mem gd hgd2, hx2⟩

/-- Auxiliary: fold over all groups' delta lists. -/
theorem mem_applyGroupDeltas (rows : List (Nat × List GroupDelta)) :
    ∀ (L : List (Nat × Levels)) (x : Nat),
      x ∈ (applyGroupDeltas L rows).flatMap (fun r => levelsSstIds r.2) →
      x ∈ L.flatMap (fun r => levelsSstIds r.2) ∨
        ∃ r ∈ rows, ∃ gd ∈ r.2, x ∈ gdInsertedIds gd := by
  induction rows with
  | nil =>
    intro L x hx
    exact Or.inl hx
  | cons row rest ih =>
    intro L x hx
    rw [applyGroupDeltas, List.foldl_cons] at hx
    rcases ih (row.2.foldl (applyGroupDelta row.1) L) x hx with hc | ⟨r2, hr2, hgd, hhgd, hx2⟩
    · rcases mem_foldl_applyGroupDelta row.1 row.2 L x hc with hc2 | ⟨gd, hgd, hx2⟩
      · exact Or.inl hc2
      · exact Or.inr ⟨row, List.mem_cons_self row rest, gd, hgd, hx2⟩
    · exact Or.inr ⟨r2, List.mem_cons_of_mem row hr2, hgd, hhgd, hx2⟩

/-- Auxiliary: ids referenced after one table's change-log delta come from the
old log or the delta's new entry. -/
theorem mem_applyChangeLogDelta (log : List EpochNewChangeLog) (cld : ChangeLogDelta)
    (x : Nat) (hx : x ∈ changeLogSstIds (applyChangeLogDelta log cld)) :
    x ∈ changeLogSstIds log ∨ x ∈ cldNewIds cld := by
  rw [changeLogSstIds] at hx
  rcases List.mem_flatMap.mp hx with ⟨c, hc, hxc⟩
  rw [applyChangeLogDelta] at hc
  rcases List.mem_append.mp hc with hc2 | hc2
  · exact Or.inl (List.mem_flatMap.mpr ⟨c, List.mem_of_mem_filter hc2, hxc⟩)
  · cases hnl : cld.new_log with
    | none =>
      rw [hnl] at hc2
      cases hc2
    | some c2 =>
      rw [hnl] at hc2
      rcases List.mem_cons.mp hc2 with hc3 | hc3
      · subst hc3
        rw [cldNewIds, hnl]
        exact Or.inr hxc
      · cases hc3

/-- Auxiliary: ids referenced by the change logs after a delta come from the
old logs or the delta's change-log entries. -/
theorem mem_applyChangeLogDeltas (logs : List (Nat × List EpochNewChangeLog))
    (d : HummockVersionDelta) (x : Nat)
    (hx : x ∈ (applyChangeLogDeltas logs d).flatMap (fun r => changeLogSstIds r.2)) :
    x ∈ logs.flatMap (fun r => changeLogSstIds r.2) ∨
      ∃ rc ∈ d.change_log_delta, x ∈ cldNewIds rc.2 := by
  rw [applyChangeLogDeltas] at hx
  rcases List.mem_flatMap.mp hx with ⟨r2, hr2, hxr⟩
  have hr3 := List.mem_of_mem_filter hr2
  rcases List.mem_append.mp hr3 with hc | hc
  · rcases List.mem_map.mp hc with ⟨r, hr, hreq⟩
    cases hlu : lookupRow r.1 d.change_log_delta with
    | none =>
      rw [hlu] at hreq
      subst hreq
      exact Or.inl (List.mem_flatMap.mpr ⟨r, hr, hxr⟩)
    | some cld =>
      rw [hlu] at hreq
      subst hreq
      rcases mem_applyChangeLogDelta r.2 cld x hxr with hc2 | hc2
      · exact Or.inl (List.mem_flatMap.mpr ⟨r, hr, hc2⟩)
      · exact Or.inr ⟨(r.1, cld), lookupRow_mem r.1 d.change_log_delta cld hlu, hc2⟩
  · rcases List.mem_map.mp hc with ⟨r, hr, hreq⟩
    subst hreq
    rcases mem_applyChangeLogDelta [] r.2 x hxr with hc2 | hc2
    · cases hc2
    · exact Or.inr ⟨r, List.mem_of_mem_filter hr, hc2⟩

/-- Auxiliary: membership form of a version's referenced-id set. -/
theorem mem_sstIdSet (v : HummockVersion) (x : Nat) :
    x ∈ HummockVersion.sstIdSet v ↔
      (x ∈ v.levels.flatMap (fun r => levelsSstIds r.2) ∨
        x ∈ v.table_change_log.flatMap (fun r => changeLogSstIds r.2)) := by
  rw [HummockVersion.sstIdSet, List.mem_toFinset, HummockVersion.sstIdList, List.mem_dedup,
    List.mem_append]

/-- Auxiliary: the id of an inserted file of a group delta of `d` is among
`d`'s newly added ids. -/
theorem gdInsertedIds_subset_newlyAdded (d : HummockVersionDelta)
    (r : Nat × List GroupDelta) (hr : r ∈ d.group_deltas) (gd : GroupDelta)
    (hgd : gd ∈ r.2) (x : Nat) (hx : x ∈ gdInsertedIds gd) :
    x ∈ d.newlyAddedSstIds := by
  rw [gdInsertedIds] at hx
  rw [HummockVersionDelta.newlyAddedSstIds, List.mem_toFinset, List.mem_map]
  cases hdt : gd.delta_type with
  | none =>
    rw [hdt] at hx
    cases hx
  | some dt =>
    cases dt with
    | intraLevel ild =>
      rw [hdt] at hx
      rcases List.mem_map.mp hx with ⟨s, hs, hsx⟩
      refine ⟨s, ?_, hsx⟩
      rw [HummockVersionDelta.newlyAddedSstInfos]
      apply List.mem_append_left
      rw [intraInsertedInfos]
      refine List.mem_flatMap.mpr ⟨r, hr, List.mem_flatMap.mpr ⟨gd, hgd, ?_⟩⟩
      rw [hdt]
      exact hs
    | groupConstruct p =>
      rw [hdt] at hx
      cases hx
    | groupDestroy p =>
      rw [hdt] at hx
      cases hx
    | groupMetaChange p =>
      rw [hdt] at hx
      cases hx
    | groupTableChange p =>
      rw [hdt] at hx
      cases hx

/-- Auxiliary: the id of a change-log entry of `d` is among `d`'s newly added
ids. -/
theorem cldNewIds_subset_newlyAdded (d : HummockVersionDelta)
    (rc : Nat × ChangeLogDelta) (hrc : rc ∈ d.change_log_delta) (x : Nat)
    (hx : x ∈ cldNewIds rc.2) : x ∈ d.newlyAddedSstIds := by
  rw [cldNewIds] at hx
  rw [HummockVersionDelta.newlyAddedSstIds, List.mem_toFinset, List.mem_map]
  cases hnl : rc.2.new_log with
  | none =>
    rw [hnl] at hx
    cases hx
  | some c =>
    rw [hnl] at hx
    rcases List.mem_map.mp hx with ⟨s, hs, hsx⟩
    refine ⟨s, ?_, hsx⟩
    rw [HummockVersionDelta.newlyAddedSstInfos]
    apply List.mem_append_right
    rw [changeLogNewInfos]
    refine List.mem_flatMap.mpr ⟨rc, hrc, ?_⟩
    rw [hnl]
    exact hs

/-- Auxiliary: ids referenced after applying one delta come from the previous
version or the delta's newly added files. -/
theorem mem_sstIdSet_applyVersionDelta (v : HummockVersion) (d : HummockVersionDelta)
    (x : Nat) (hx : x ∈ HummockVersion.sstIdSet (applyVersionDelta v d)) :
    x ∈ HummockVersion.sstIdSet v ∨ x ∈ d.newlyAddedSstIds := by
  rw [mem_sstIdSet] at hx
  rcases hx with hx | hx
  · rcases mem_applyGroupDeltas d.group_deltas v.levels x hx with hc | ⟨r, hr, gd, hgd, hx2⟩
    · exact Or.inl ((mem_sstIdSet v x).mpr (Or.inl hc))
    · exact Or.inr (gdInsertedIds_subset_newlyAdded d r hr gd hgd x hx2)
  · rcases mem_applyChangeLogDeltas v.table_change_log d x hx with hc | ⟨rc, hrc, hx2⟩
    · exact Or.inl ((mem_sstIdSet v x).mpr (Or.inr hc))
    · exact Or.inr (cldNewIds_subset_newlyAdded d rc hrc x hx2)

/-- Auxiliary: advancing the running id leaves the referenced-id set alone. -/
theorem sstIdSet_advanceTo (v : HummockVersion) (t : Nat) :
    HummockVersion.sstIdSet (advanceTo v t) = HummockVersion.sstIdSet v := by
  rw [advanceTo_eq_max]
  rfl

/-- Auxiliary: ids referenced by a replayed chain come from the keyframe or
the newly added files of some delta of the chain. -/
theorem mem_sstIdSet_replay (ds : List HummockVersionDelta) :
    ∀ (v : HummockVersion) (x : Nat), x ∈ HummockVersion.sstIdSet (replay_archive v ds) →
      x ∈ HummockVersion.sstIdSet v ∨ ∃ d ∈ ds, x ∈ d.newlyAddedSstIds := by
  induction ds with
  | nil =>
    intro v x hx
    exact Or.inl hx
  | cons d rest ih =>
    intro v x hx
    rw [replay_archive, List.foldl_cons] at hx
    rcases ih (replayStep v d) x hx with hc | ⟨d2, hd2, hx2⟩
    · rw [replayStep] at hc
      rcases mem_sstIdSet_applyVersionDelta _ d x hc with hc2 | hc2
      · rw [sstIdSet_advanceTo] at hc2
        exact Or.inl hc2
      · exact Or.inr ⟨d, List.mem_cons_self d rest, hc2⟩
    · exact Or.inr ⟨d2, List.mem_cons_of_mem d hd2, hx2⟩

/-- Auxiliary: membership of ascending row insertion. -/
theorem mem_insertAscRow (x : Nat × α) (l : List (Nat × α)) :
    ∀ y, y ∈ insertAscRow x l ↔ y = x ∨ y ∈ l := by
  induction l with
  | nil =>
    intro y
    simp [insertAscRow]
  | cons z rest ih =>
    intro y
    rw [insertAscRow]
    by_cases hc : x.1 ≤ z.1
    · simp [hc]
    · simp only [hc, if_false, List.mem_cons, ih y]
      tauto

/-- Auxiliary: ascending row sort preserves membership. -/
theorem mem_sortAscRows (l : List (Nat × α)) : ∀ x, x ∈ sortAscRows l ↔ x ∈ l := by
  induction l with
  | nil =>
    intro x
    simp [sortAscRows]
  | cons a rest ih =>
    intro x
    show x ∈ insertAscRow a (sortAscRows rest) ↔ _
    rw [mem_insertAscRow, ih x, List.mem_cons]

/-- Auxiliary: descending insertion preserves sortedness. -/
theorem pairwise_insertDesc (x : Nat) (l : List Nat)
    (h : l.Pairwise (fun a b => b ≤ a)) :
    (insertDesc x l).Pairwise (fun a b => b ≤ a) := by
  induction l with
  | nil => simp [insertDesc]
  | cons z rest ih =>
    rw [insertDesc]
    obtain ⟨hz, hrest⟩ := List.pairwise_cons.mp h
    by_cases hc : z ≤ x
    · rw [if_pos hc]
      refine List.Pairwise.cons ?_ h
      intro y hy
      rcases List.mem_cons.mp hy with hy | hy
      · omega
      · have := hz y hy
        omega
    · rw [if_neg hc]
      refine List.Pairwise.cons ?_ (ih hrest)
      intro y hy
      rcases (mem_insertDesc x rest y).mp hy with hy | hy
      · omega
      · exact hz y hy
  
/-- Auxiliary: the descending sort is sorted. -/
theorem pairwise_sortDesc (l : List Nat) : (sortDesc l).Pairwise (fun a b => b ≤ a) := by
  induction l with
  | nil => exact List.Pairwise.nil
  | cons a rest ih => exact pairwise_insertDesc a (sortDesc rest) ih

/-- Auxiliary: descending insertion preserves distinctness. -/
theorem nodup_insertDesc (x : Nat) (l : List Nat) (hx : x ∉ l) (h : l.Nodup) :
    (insertDesc x l).Nodup := by
  induction l with
  | nil => simp [insertDesc]
  | cons z rest ih =>
    rw [insertDesc]
    rw [List.nodup_cons] at h
    by_cases hc : z ≤ x
    · rw [if_pos hc]
      rw [List.nodup_cons]
      exact ⟨hx, List.nodup_cons.mpr h⟩
    · rw [if_neg hc]
      rw [List.nodup_cons]
      constructor
      · intro hz
        rcases (mem_insertDesc x rest z).mp hz with hc2 | hc2
        · exact hx (hc2 ▸ List.mem_cons_self z rest)
        · exact h.1 hc2
      · exact ih (fun hc2 => hx (List.mem_cons_of_mem z hc2)) h.2

/-- Auxiliary: the descending sort preserves distinctness. -/
theorem nodup_sortDesc (l : List Nat) (h : l.Nodup) : (sortDesc l).Nodup := by
  induction l with
  | nil => exact List.Pairwise.nil
  | cons a rest ih =>
    rw [List.nodup_cons] at h
    show (insertDesc a (sortDesc rest)).Nodup
    exact nodup_insertDesc a (sortDesc rest)
      (fun hc => h.1 ((mem_sortDesc rest a).mp hc)) (ih h.2)

/-- Auxiliary: a distinct descending-sorted list is strictly descending. -/
theorem pairwise_lt_sortDesc (l : List Nat) (h : l.Nodup) :
    (sortDesc l).Pairwise (fun a b => b < a) := by
  have h1 := pairwise_sortDesc l
  have h2 := nodup_sortDesc l h
  have := List.Pairwise.and h1 h2
  exact this.imp (fun hab => by omega)

/-- Auxiliary: every id in the removable-delta delete set originates in a
listed delta row's newly added set, outside the floor. -/
theorem deltaDeletes_src (ds : List (Nat × HummockVersionDelta)) (floor : Finset Nat) :
    ∀ ids dd, deltaDeletes ds floor ids = Except.ok dd →
      ∀ x ∈ dd, ∃ i ∈ ids, ∃ d, lookupRow i ds = some d ∧
        x ∈ d.newlyAddedSstIds ∧ x ∉ floor := by
  intro ids
  induction ids with
  | nil =>
    intro dd h x hx
    cases h
    cases hx
  | cons j rest ih =>
    intro dd h x hx
    rw [deltaDeletes] at h
    cases hj : lookupRow j ds with
    | none =>
      simp only [hj] at h
      cases h
    | some dj =>
      simp only [hj] at h
      cases hr : deltaDeletes ds floor rest with
      | error e =>
        simp only [hr] at h
        cases h
      | ok tail =>
        simp only [hr] at h
        cases h
        rcases Finset.mem_union.mp hx with hc | hc
        · have := Finset.mem_sdiff.mp hc
          exact ⟨j, List.mem_cons_self j rest, dj, hj, this.1, this.2⟩
        · rcases ih tail hr x hc with ⟨i, hi, d, hld, hxd, hxf⟩
          exact ⟨i, List.mem_cons_of_mem j hi, d, hld, hxd, hxf⟩

/-- Auxiliary: every id in the removable-keyframe delete set lies in some
listed keyframe row's id set. -/
theorem chainDeletes_src (kfs : List (Nat × HummockVersion)) :
    ∀ ids (next : Finset Nat) kd, chainDeletes kfs next ids = Except.ok kd →
      ∀ x ∈ kd, ∃ i ∈ ids, ∃ v, lookupRow i kfs = some v ∧
        x ∈ HummockVersion.sstIdSet v := by
  intro ids
  induction ids with
  | nil =>
    intro next kd h x hx
    cases h
    cases hx
  | cons j rest ih =>
    intro next kd h x hx
    rw [chainDeletes] at h
    cases hj : lookupRow j kfs with
    | none =>
      simp only [hj] at h
      cases h
    | some vj =>
      simp only [hj] at h
      cases hr : chainDeletes kfs (HummockVersion.sstIdSet vj) rest with
      | error e =>
        simp only [hr] at h
        cases h
      | ok tail =>
        simp only [hr] at h
        cases h
        rcases Finset.mem_union.mp hx with hc | hc
        · exact ⟨j, List.mem_cons_self j rest, vj, hj, (Finset.mem_sdiff.mp hc).1⟩
        · rcases ih (HummockVersion.sstIdSet vj) tail hr x hc with ⟨i, hi, v2, hlv, hxv⟩
          exact ⟨i, List.mem_cons_of_mem j hi, v2, hlv, hxv⟩

/-- Auxiliary: an id in the anchor keyframe's file set is never marked by the
removable-keyframe walk — the no-resurrection invariant pushes it into every
intermediate keyframe the walk subtracts. -/
theorem chain_avoids_floor (kfs : List (Nat × HummockVersion)) (bigK : Nat)
    (vK : HummockVersion) (hKlu : lookupRow bigK kfs = some vK)
    (hJ2 : ∀ r1 ∈ kfs, ∀ r2 ∈ kfs, ∀ r3 ∈ kfs, r1.1 < r2.1 → r2.1 < r3.1 →
      ∀ y, y ∈ HummockVersion.sstIdSet r1.2 → y ∈ HummockVersion.sstIdSet r3.2 →
        y ∈ HummockVersion.sstIdSet r2.2)
    (x : Nat) (hx : x ∈ HummockVersion.sstIdSet vK) :
    ∀ (ids : List Nat) (p : Nat) (vp : HummockVersion),
      lookupRow p kfs = some vp → p ≤ bigK → (∀ i ∈ ids, i < p) →
      ids.Pairwise (fun a b => b < a) →
      ∀ kd, chainDeletes kfs (HummockVersion.sstIdSet vp) ids = Except.ok kd →
        x ∉ kd := by
  intro ids
  induction ids with
  | nil =>
    intro p vp _ _ _ _ kd h hx2
    cases h
    cases hx2
  | cons j rest ih =>
    intro p vp hplu hpK hlt hpw kd h hxkd
    rw [chainDeletes] at h
    cases hj : lookupRow j kfs with
    | none =>
      simp only [hj] at h
      cases h
    | some vj =>
      simp only [hj] at h
      cases hr : chainDeletes kfs (HummockVersion.sstIdSet vj) rest with
      | error e =>
        simp only [hr] at h
        cases h
      | ok tail =>
        simp only [hr] at h
        cases h
        have hxvp : x ∈ HummockVersion.sstIdSet vj → x ∈ HummockVersion.sstIdSet vp := by
          intro hxj
          by_cases hpb : p = bigK
          · subst hpb
            rw [hplu] at hKlu
            cases hKlu
            exact hx
          · exact hJ2 (j, vj) (lookupRow_mem j kfs vj hj) (p, vp)
              (lookupRow_mem p kfs vp hplu) (bigK, vK) (lookupRow_mem bigK kfs vK hKlu)
              (hlt j (List.mem_cons_self j rest)) (by omega) x hxj hx
        rcases Finset.mem_union.mp hxkd with hc | hc
        · have := Finset.mem_sdiff.mp hc
          exact this.2 (hxvp this.1)
        · obtain ⟨hj2, hpw2⟩ := List.pairwise_cons.mp hpw
          exact ih j vj hj (by
              have := hlt j (List.mem_cons_self j rest)
              omega)
            (fun i hi => hj2 i hi) hpw2 tail hr hc

/-- Auxiliary: the resolution only reads the epoch index through the
max-selection query. -/
theorem epochToVersion_idx_congr (db : Db) (idx2 : List (Nat × Nat)) (B q : Nat)
    (h : selMax (fun k => decide (k ≤ q)) idx2
      = selMax (fun k => decide (k ≤ q)) db.epochIndex) :
    epochToVersion { db with epochIndex := idx2 } B q = epochToVersion db B q := by
  simp only [epochToVersion, h]

/-- Auxiliary: two stores on which the resolution's reads agree resolve
identically: same selected index entry, same selected keyframe row, same
delta rows in the replay range, and the same fetched registry rows for the
replayed version's referenced ids. -/
theorem epochToVersion_eq_of_components (db db2 : Db) (B q : Nat) (entry : Nat × Nat)
    (kfS : Nat × HummockVersion)
    (h1 : selMax (fun k => decide (k ≤ q)) db.epochIndex = some entry)
    (h1b : selMax (fun k => decide (k ≤ q)) db2.epochIndex = some entry)
    (h2 : selMax (fun k => decide (k ≤ entry.2)) db.keyframes = some kfS)
    (h2b : selMax (fun k => decide (k ≤ entry.2)) db2.keyframes = some kfS)
    (h3 : db2.deltas.filter (fun r => decide (kfS.1 < r.1 ∧ r.1 ≤ entry.2))
      = db.deltas.filter (fun r => decide (kfS.1 < r.1 ∧ r.1 ≤ entry.2)))
    (h4 : fetchRows db2.registry B
        (HummockVersion.sstIdList (replay_archive kfS.2
          ((sortAscRows (db.deltas.filter
            (fun r => decide (kfS.1 < r.1 ∧ r.1 ≤ entry.2)))).map (fun r => r.2))))
      = fetchRows db.registry B
        (HummockVersion.sstIdList (replay_archive kfS.2
          ((sortAscRows (db.deltas.filter
            (fun r => decide (kfS.1 < r.1 ∧ r.1 ≤ entry.2)))).map (fun r => r.2))))) :
    epochToVersion db2 B q = epochToVersion db B q := by
  simp only [epochToVersion, h1, h1b, h2, h2b, h3, h4]

/-- Auxiliary: `flatMap` congruence on members. -/
theorem flatMap_congr_mem (l : List α) (f g : α → List β) (h : ∀ a ∈ l, f a = g a) :
    l.flatMap f = l.flatMap g := by
  induction l with
  | nil => rfl
  | cons a rest ih =>
    rw [List.flatMap_cons, List.flatMap_cons, h a (List.mem_cons_self a rest),
      ih (fun b hb => h b (List.mem_cons_of_mem a hb))]

/-- C1 (amended): GC safety.  For a well-formed archive — unique keyframe
keys, epoch-to-version-id monotone index, fresh newly-added ids (disjoint
across deltas and absent from every older keyframe), no resurrection across
keyframes, and keyframe contents explained by an older keyframe plus the
deltas between them — after `truncate(w)` commits, every `resolve(e)` with
`e ≥ w` whose resolving index entry (the greatest indexed epoch at most `e`)
is itself at or above the watermark returns the identical materialized
version afterward: no keyframe, delta, epoch-index row, or registry record
such a resolve needs is deleted. -/
theorem gc_safety (db : Db) (B w e : Nat) (v : HummockVersion) (db2 : Db)
    (hndk : (db.keyframes.map Prod.fst).Nodup)
    (hmono : ∀ r1 ∈ db.epochIndex, ∀ r2 ∈ db.epochIndex, r1.1 ≤ r2.1 → r1.2 ≤ r2.2)
    (hJ1a : ∀ r1 ∈ db.deltas, ∀ r2 ∈ db.deltas, r1.1 ≠ r2.1 →
      ∀ x ∈ r1.2.newlyAddedSstIds, x ∉ r2.2.newlyAddedSstIds)
    (hJ1b : ∀ rd ∈ db.deltas, ∀ rk ∈ db.keyframes, rk.1 < rd.1 →
      ∀ x ∈ rd.2.newlyAddedSstIds, x ∉ HummockVersion.sstIdSet rk.2)
    (hJ2 : ∀ r1 ∈ db.keyframes, ∀ r2 ∈ db.keyframes, ∀ r3 ∈ db.keyframes,
      r1.1 < r2.1 → r2.1 < r3.1 → ∀ y, y ∈ HummockVersion.sstIdSet r1.2 →
        y ∈ HummockVersion.sstIdSet r3.2 → y ∈ HummockVersion.sstIdSet r2.2)
    (hJ3 : ∀ r1 ∈ db.keyframes, ∀ r2 ∈ db.keyframes, r1.1 ≤ r2.1 →
      ∀ x ∈ HummockVersion.sstIdSet r2.2, x ∈ HummockVersion.sstIdSet r1.2 ∨
        ∃ rd ∈ db.deltas, r1.1 < rd.1 ∧ rd.1 ≤ r2.1 ∧ x ∈ rd.2.newlyAddedSstIds)
    (hsel : ∀ r, selMax (fun k => decide (k ≤ e)) db.epochIndex = some r → w ≤ r.1)
    (hres : epochToVersion db B e = Except.ok v)
    (htr : truncateTimeTravelMetadata db w = Except.ok db2) :
    epochToVersion db2 B e = Except.ok v := by
  have hres0 := hres
  cases hq : selMax (fun k => decide (k ≤ e)) db.epochIndex with
  | none =>
    rw [epochToVersion] at hres
    simp only [hq] at hres
    cases hres
  | some entry =>
    rw [truncateTimeTravelMetadata] at htr
    cases hvw : selMax (fun e2 => decide (e2 < w)) db.epochIndex with
    | none =>
      simp only [hvw] at htr
      cases htr
      exact hres
    | some vw =>
      simp only [hvw] at htr
      cases hkfa : selMax (fun k => decide (k ≤ vw.2)) db.keyframes with
      | none =>
        simp only [hkfa] at htr
        cases htr
        have h1b : selMax (fun k => decide (k ≤ e))
            (db.epochIndex.filter (fun r => decide (¬ r.1 < w))) = some entry := by
          apply selMax_filter _ _ _ _ hq
          have := hsel entry hq
          simp only [decide_eq_true_eq]
          omega
        rw [epochToVersion_idx_congr db _ B e (by rw [h1b, hq])]
        exact hres
      | some kfA =>
        simp only [hkfa] at htr
        cases hcd : computeDeleteSets db kfA.1
            (sortDesc ((db.keyframes.map (fun r => r.1)).filter
              (fun i => decide (i < kfA.1))))
            ((db.deltas.map (fun r => r.1)).filter (fun i => decide (i < kfA.1))) with
        | error e2 =>
          simp only [hcd] at htr
          cases htr
        | ok delIds =>
          simp only [hcd] at htr
          cases htr
          rw [epochToVersion] at hres
          simp only [hq] at hres
          cases hkfs : selMax (fun k => decide (k ≤ entry.2)) db.keyframes with
          | none =>
            simp only [hkfs] at hres
            cases hres
          | some kfS =>
            have hw_entry : w ≤ entry.1 := hsel entry hq
            obtain ⟨hvw_mem, hvw_p⟩ := selMax_mem _ _ _ hvw
            obtain ⟨hentry_mem, hentry_p⟩ := selMax_mem _ _ _ hq
            obtain ⟨hkfA_mem, hkfA_p⟩ := selMax_mem _ _ _ hkfa
            obtain ⟨hkfS_mem, hkfS_p⟩ := selMax_mem _ _ _ hkfs
            have hvw_lt : vw.1 < w := by simpa using hvw_p
            have hkfA_le : kfA.1 ≤ vw.2 := by simpa using hkfA_p
            have hv2 : vw.2 ≤ entry.2 :=
              hmono vw hvw_mem entry hentry_mem (by omega)
            have hKleS : kfA.1 ≤ kfS.1 :=
              selMax_maximal _ _ _ hkfs kfA hkfA_mem (by simp; omega)
            have hKlu : lookupRow kfA.1 db.keyframes = some kfA.2 :=
              lookupRow_of_mem_nodup db.keyframes hndk kfA.1 kfA.2 hkfA_mem
            -- dissect the delete-set computation
            rw [computeDeleteSets] at hcd
            simp only [hKlu] at hcd
            cases hdd : deltaDeletes db.deltas (HummockVersion.sstIdSet kfA.2)
                ((db.deltas.map (fun r => r.1)).filter (fun i => decide (i < kfA.1))) with
            | error e3 =>
              simp only [hdd] at hcd
              cases hcd
            | ok dd =>
              simp only [hdd] at hcd
              cases hch : chainDeletes db.keyframes (HummockVersion.sstIdSet kfA.2)
                  (sortDesc ((db.keyframes.map (fun r => r.1)).filter
                    (fun i => decide (i < kfA.1)))) with
              | error e3 =>
                simp only [hch] at hcd
                cases hcd
              | ok kd =>
                simp only [hch] at hcd
                cases hcd
                -- the ids the retained resolve needs avoid the delete set
                have hdisj : ∀ x ∈ HummockVersion.sstIdList (replay_archive kfS.2
                    ((sortAscRows (db.deltas.filter
                      (fun r => decide (kfS.1 < r.1 ∧ r.1 ≤ entry.2)))).map (fun r => r.2))),
                    x ∉ dd ∪ kd := by
                  intro x hxN hxD
                  have hxset := List.mem_toFinset.mpr hxN
                  have hsrc := mem_sstIdSet_replay _ kfS.2 x hxset
                  have hretained : ∀ rd2, rd2 ∈ (sortAscRows (db.deltas.filter
                      (fun r => decide (kfS.1 < r.1 ∧ r.1 ≤ entry.2)))) →
                      rd2 ∈ db.deltas ∧ kfS.1 < rd2.1 := by
                    intro rd2 hrd2
                    have := (mem_sortAscRows _ rd2).mp hrd2
                    have h5 := List.mem_filter.mp this
                    refine ⟨h5.1, ?_⟩
                    have := h5.2
                    simp at this
                    omega
                  rcases Finset.mem_union.mp hxD with hxdd | hxkd
                  · -- deleted by the removable-delta step
                    rcases deltaDeletes_src db.deltas _ _ dd hdd x hxdd with
                      ⟨i, hi, dOld, hlu, hxOld, hxF⟩
                    have hiK : i < kfA.1 := by
                      have := (List.mem_filter.mp hi).2
                      simpa using this
                    have hOldMem : (i, dOld) ∈ db.deltas := lookupRow_mem i db.deltas dOld hlu
                    rcases hsrc with hcase | ⟨d2, hd2, hxd2⟩
                    · rcases hJ3 kfA hkfA_mem kfS hkfS_mem hKleS x hcase with hcF | ⟨rd, hrd, hgt, _, hxrd⟩
                      · exact hxF hcF
                      · exact hJ1a (i, dOld) hOldMem rd hrd (by simp; omega) x hxOld hxrd
                    · rcases List.mem_map.mp hd2 with ⟨row, hrow, hroweq⟩
                      obtain ⟨hrowmem, hrowgt⟩ := hretained row hrow
                      exact hJ1a (i, dOld) hOldMem row hrowmem (by simp; omega) x hxOld
                        (hroweq ▸ hxd2)
                  · -- deleted by the removable-keyframe chain
                    rcases chainDeletes_src db.keyframes _ _ kd hch x hxkd with
                      ⟨i, hi, vOld, hluv, hxv⟩
                    have hiK : i < kfA.1 := by
                      have := (List.mem_filter.mp ((mem_sortDesc _ i).mp hi)).2
                      simpa using this
                    have hOldMem : (i, vOld) ∈ db.keyframes :=
                      lookupRow_mem i db.keyframes vOld hluv
                    rcases hsrc with hcase | ⟨d2, hd2, hxd2⟩
                    · rcases hJ3 kfA hkfA_mem kfS hkfS_mem hKleS x hcase with hcF | ⟨rd, hrd, hgt, _, hxrd⟩
                      · -- x is in the floor: the chain never deletes it
                        have hpw : (sortDesc ((db.keyframes.map (fun r => r.1)).filter
                            (fun i => decide (i < kfA.1)))).Pairwise (fun a b => b < a) := by
                          apply pairwise_lt_sortDesc
                          exact hndk.filter _
                        exact chain_avoids_floor db.keyframes kfA.1 kfA.2 hKlu hJ2 x hcF
                          _ kfA.1 kfA.2 hKlu (le_refl kfA.1)
                          (fun i2 hi2 => by
                            have := (List.mem_filter.mp ((mem_sortDesc _ i2).mp hi2)).2
                            simpa using this)
                          hpw kd hch hxkd
                      · exact hJ1b rd hrd (i, vOld) hOldMem (by omega) x hxrd hxv
                    · rcases List.mem_map.mp hd2 with ⟨row, hrow, hroweq⟩
                      obtain ⟨hrowmem, hrowgt⟩ := hretained row hrow
                      exact hJ1b row hrowmem (i, vOld) hOldMem (by omega) x
                        (hroweq ▸ hxd2) hxv
                -- post-truncation selections agree
                have h1b : selMax (fun k => decide (k ≤ e))
                    (db.epochIndex.filter (fun r => decide (¬ r.1 < w))) = some entry := by
                  apply selMax_filter _ _ _ _ hq
                  simp only [decide_eq_true_eq]
                  omega
                have h2b : selMax (fun k => decide (k ≤ entry.2))
                    (db.keyframes.filter (fun r => decide (¬ r.1 < kfA.1))) = some kfS := by
                  apply selMax_filter _ _ _ _ hkfs
                  simp only [decide_eq_true_eq]
                  omega
                have h3 : (db.deltas.filter (fun r => decide (¬ r.1 < kfA.1))).filter
                      (fun r => decide (kfS.1 < r.1 ∧ r.1 ≤ entry.2))
                    = db.deltas.filter (fun r => decide (kfS.1 < r.1 ∧ r.1 ≤ entry.2)) := by
                  rw [List.filter_filter]
                  apply List.filter_congr
                  intro r hr
                  by_cases hc : kfS.1 < r.1 ∧ r.1 ≤ entry.2
                  · have : ¬ r.1 < kfA.1 := by omega
                    simp [hc, this]
                  · simp [hc]
                have h4 : fetchRows (db.registry.filter
                      (fun r => decide (r.1 ∉ dd ∪ kd))) B
                    (HummockVersion.sstIdList (replay_archive kfS.2
                      ((sortAscRows (db.deltas.filter
                        (fun r => decide (kfS.1 < r.1 ∧ r.1 ≤ entry.2)))).map (fun r => r.2))))
                    = fetchRows db.registry B
                    (HummockVersion.sstIdList (replay_archive kfS.2
                      ((sortAscRows (db.deltas.filter
                        (fun r => decide (kfS.1 < r.1 ∧ r.1 ≤ entry.2)))).map
                          (fun r => r.2)))) := by
                  set N := HummockVersion.sstIdList (replay_archive kfS.2
                    ((sortAscRows (db.deltas.filter
                      (fun r => decide (kfS.1 < r.1 ∧ r.1 ≤ entry.2)))).map (fun r => r.2)))
                  by_cases hB : B = 0
                  · rw [fetchRows, fetchRows,
                      fetchBatches_degenerate B N (Or.inr hB)]
                    rfl
                  · have hflat := fetchBatches_join B (by omega) N.length N rfl
                    rw [fetchRows, fetchRows]
                    apply flatMap_congr_mem
                    intro b hb
                    rw [List.filter_filter]
                    apply List.filter_congr
                    intro r hr
                    by_cases hc : r.1 ∈ b
                    · have hxN : r.1 ∈ N := by
                        rw [← hflat]
                        exact List.mem_flatten.mpr ⟨b, hb, hc⟩
                      have hnotD : r.1 ∉ dd ∪ kd := hdisj r.1 hxN
                      simp [hc, hnotD]
                    · simp [hc]
                rw [epochToVersion_eq_of_components db _ B e entry kfS hq h1b hkfs h2b h3 h4]
                exact hres0

/-- Counterexample for C1 as stated: before truncation, `resolve(25)` (an
epoch at or above the watermark 20) succeeds through the index entry at epoch
10; `truncate(20)` deletes every index row below 20 — including that entry —
so the same resolve fails afterward even though 25 ≥ 20.  The claim only
holds when the resolving entry itself is at or above the watermark. -/
theorem gc_safety_counterexample :
    epochToVersion dbC1 100 25 = Except.ok (kvEpoch 1) ∧
    truncateTimeTravelMetadata dbC1 20 = Except.ok dbC1after ∧
    (20 : Nat) ≤ 25 ∧
    epochToVersion dbC1after 100 25 ≠ Except.ok (kvEpoch 1) :=
  ⟨by decide, by decide, by decide, by decide⟩

/-- Witness for the amended C1 on a store where the resolving entry (epoch
10) is above the watermark 5: the resolve is unchanged by truncation. -/
theorem gc_safety_witness :
    epochToVersion dbC1 100 10 = Except.ok (kvEpoch 1) ∧
    truncateTimeTravelMetadata dbC1 5 = Except.ok dbC1 ∧
    epochToVersion dbC1 100 10 = Except.ok (kvEpoch 1) := by
  refine ⟨by decide, by decide, ?_⟩
  exact gc_safety dbC1 100 5 10 (kvEpoch 1) dbC1 (by decide) (by decide) (by decide)
    (by decide) (by decide) (by decide)
    (fun r hr => by
      have hsel10 : selMax (fun k => decide (k ≤ 10)) dbC1.epochIndex = some (10, 1) := by
        decide
      rw [hsel10] at hr
      cases hr
      decide)
    (by decide) (by decide)
